import Mathlib

/-
Verification of the crawl engine of the seo-tools repository.

The embedding works over `List Char` (abbreviated `Str`) so that the
Python string operations (strip, split, glob matching, formatting)
can be modelled exactly and reasoned about by structural induction.
Paths on disk are modelled as lists of path components relative to the
base output directory, and the file system as an association list from
paths to file contents, kept in creation order (writes to an existing
path overwrite in place, as `Path.write_text` does).
-/

namespace SeoTools

abbrev Str := List Char

/-- Python `s.strip(c)` for a single strip character: remove every
leading and trailing occurrence of `c`. -/
def stripChar (c : Char) (s : Str) : Str :=
  ((s.dropWhile (fun a => a = c)).reverse.dropWhile (fun a => a = c)).reverse

/-- Python `s.rstrip(c)` for a single strip character. -/
def rstripChar (c : Char) (s : Str) : Str :=
  (s.reverse.dropWhile (fun a => a = c)).reverse

/-- Split at the first occurrence of `c`: returns the part before and the
part after, or `none` when `c` does not occur.  Models Python
`s.split(c, 1)` (which returns one piece when `c` is absent). -/
def splitFirst (c : Char) : Str → Option (Str × Str)
  | [] => none
  | a :: rest =>
    if a = c then some ([], rest)
    else (splitFirst c rest).map (fun p => (a :: p.1, p.2))

/-- Python `s.isdigit()` restricted to ASCII digits (all strings the code
ever tests with it are produced from ASCII status codes and slugs). -/
def isDigits (s : Str) : Bool :=
  !s.isEmpty && s.all Char.isDigit

/-- Lowercasing, `str.lower` on the characters that occur in URLs. -/
def toLowerStr (s : Str) : Str := s.map Char.toLower

/-- Decimal digit character for `d < 10`. -/
def digitChar (d : Nat) : Char := Char.ofNat (48 + d)

/-- Decimal representation of a natural number, least significant digit
computed first, with explicit recursion fuel so the kernel can evaluate
it; `natToStr` below supplies sufficient fuel.  Models Python `str(n)`
(and the status part of the page file name f-string). -/
def natToStrGo : Nat → Nat → Str → Str
  | 0, _, acc => acc
  | fuel + 1, n, acc =>
    if n < 10 then digitChar n :: acc
    else natToStrGo fuel (n / 10) (digitChar (n % 10) :: acc)

def natToStr (n : Nat) : Str := natToStrGo (n + 1) n []

/-- Python `int(s)` on a digit string (the code only applies it after an
`isdigit` check). -/
def strToNat (s : Str) : Nat :=
  s.foldl (fun a c => a * 10 + (c.toNat - 48)) 0

theorem digitChar_isDigit {d : Nat} (h : d < 10) : (digitChar d).isDigit = true := by
  interval_cases d <;> decide

theorem natToStrGo_eq (fuel n : Nat) (acc : Str) (h : n < fuel) :
    natToStrGo fuel n acc = natToStr n ++ acc := by
  induction n using Nat.strong_induction_on generalizing fuel acc with
  | _ n ih =>
    match fuel, h with
    | fuel + 1, h =>
      by_cases h10 : n < 10
      · simp [natToStrGo, natToStr, h10]
      · have hdiv : n / 10 < n :=
          Nat.div_lt_self (Nat.lt_of_lt_of_le (by norm_num) (Nat.not_lt.mp h10)) (by norm_num)
        have h1 : n / 10 < fuel := by omega
        have hn : natToStr n = natToStr (n / 10) ++ [digitChar (n % 10)] := by
          show natToStrGo (n + 1) n [] = _
          simp only [natToStrGo, h10, if_false]
          exact ih (n / 10) hdiv n _ hdiv
        simp only [natToStrGo, h10, if_false]
        rw [ih (n / 10) hdiv fuel _ h1, hn]
        simp

/-- Recursion equation for `natToStr`. -/
theorem natToStr_eq (n : Nat) :
    natToStr n =
      if n < 10 then [digitChar n] else natToStr (n / 10) ++ [digitChar (n % 10)] := by
  by_cases h10 : n < 10
  · simp [natToStr, natToStrGo, h10]
  · have hdiv : n / 10 < n :=
      Nat.div_lt_self (Nat.lt_of_lt_of_le (by norm_num) (Nat.not_lt.mp h10)) (by norm_num)
    conv_lhs => rw [natToStr]
    simp only [natToStrGo, h10, if_false]
    rw [natToStrGo_eq n (n / 10) _ (by omega)]

theorem natToStr_digits (n : Nat) : (natToStr n).all Char.isDigit = true := by
  induction n using Nat.strong_induction_on with
  | _ n ih =>
    rw [natToStr_eq]
    by_cases h10 : n < 10
    · simp [h10, digitChar_isDigit h10]
    · have hdiv : n / 10 < n :=
        Nat.div_lt_self (Nat.lt_of_lt_of_le (by norm_num) (Nat.not_lt.mp h10)) (by norm_num)
      simp [h10, ih (n / 10) hdiv, digitChar_isDigit (Nat.mod_lt n (by norm_num))]

theorem natToStr_ne_nil (n : Nat) : natToStr n ≠ [] := by
  rw [natToStr_eq]
  split <;> simp

theorem strToNat_append (s t : Str) :
    strToNat (s ++ t) = t.foldl (fun a c => a * 10 + (c.toNat - 48)) (strToNat s) := by
  simp [strToNat, List.foldl_append]

theorem toNat_digitChar {d : Nat} (h : d < 10) : (digitChar d).toNat - 48 = d := by
  interval_cases d <;> decide

theorem strToNat_natToStr (n : Nat) : strToNat (natToStr n) = n := by
  induction n using Nat.strong_induction_on with
  | _ n ih =>
    rw [natToStr_eq]
    by_cases h10 : n < 10
    · simp [h10, strToNat, toNat_digitChar h10]
    · have hdiv : n / 10 < n :=
        Nat.div_lt_self (Nat.lt_of_lt_of_le (by norm_num) (Nat.not_lt.mp h10)) (by norm_num)
      simp only [h10, if_false, strToNat_append, List.foldl_cons, List.foldl_nil]
      rw [ih (n / 10) hdiv, toNat_digitChar (Nat.mod_lt n (by norm_num))]
      omega

theorem natToStr_injective {m n : Nat} (h : natToStr m = natToStr n) : m = n := by
  have := strToNat_natToStr m
  rw [h, strToNat_natToStr] at this
  exact this.symm

/-
URL parsing, following the behaviour of `urllib.parse.urlsplit`,
`urlparse`, `urlunparse` (`geturl`) and the `.hostname` accessor on the
inputs the repository feeds them (absolute and scheme-relative URLs).
-/

/-- The components of a parsed URL, as in `urllib.parse.ParseResult`.
The hostname is not stored: as in CPython it is derived from the netloc
by `hostnameOf`. -/
structure PUrl where
  scheme : Str
  netloc : Str
  path : Str
  params : Str
  query : Str
  fragment : Str
deriving Repr, DecidableEq

/-- Characters allowed in a URL scheme (`scheme_chars` in CPython). -/
def schemeChars (c : Char) : Bool :=
  c.isAlpha || c.isDigit || c = '+' || c = '-' || c = '.'

/-- Split off the scheme: the text before the first colon, when it is
non-empty and made of scheme characters, lowercased. -/
def splitScheme (url : Str) : Str × Str :=
  match splitFirst ':' url with
  | some (pre, post) =>
    if pre ≠ [] ∧ pre.all schemeChars then (toLowerStr pre, post) else ([], url)
  | none => ([], url)

/-- Split off the network location after a leading `//`: everything up to
the next `/`, `?` or `#`. -/
def splitNetloc (s : Str) : Str × Str :=
  if ('/' :: '/' :: []).isPrefixOf s then
    let t := s.drop 2
    (t.takeWhile (fun c => ¬(c = '/' ∨ c = '?' ∨ c = '#')),
     t.dropWhile (fun c => ¬(c = '/' ∨ c = '?' ∨ c = '#')))
  else ([], s)

/-- `urllib.parse.urlsplit` on the URL shapes the repository handles:
scheme, then optional `//netloc`, then fragment split at the first `#`,
then query split at the first `?`. -/
def urlsplitModel (url : Str) : PUrl :=
  let (scheme, rest1) := splitScheme url
  let (netloc, rest2) := splitNetloc rest1
  let (rest3, fragment) :=
    match splitFirst '#' rest2 with
    | some (a, b) => (a, b)
    | none => (rest2, [])
  let (path, query) :=
    match splitFirst '?' rest3 with
    | some (a, b) => (a, b)
    | none => (rest3, [])
  ⟨scheme, netloc, path, [], query, fragment⟩

/-- `_splitparams`: split `;params` off the last path segment. -/
def splitParams (p : Str) : Str × Str :=
  let lastSeg := (p.splitOn '/').getLastD []
  if ';' ∈ lastSeg then
    match splitFirst ';' lastSeg with
    | some (a, b) => ((p.take (p.length - lastSeg.length)) ++ a, b)
    | none => (p, [])
  else (p, [])

/-- `urllib.parse.urlparse`: `urlsplit` plus the params split. -/
def urlparseModel (url : Str) : PUrl :=
  let u := urlsplitModel url
  let (path, params) := splitParams u.path
  { u with path := path, params := params }

/-- The part of the netloc after the last `@` (userinfo removed). -/
def afterLastAt (netloc : Str) : Str :=
  match splitFirst '@' netloc.reverse with
  | some (revHost, _) => revHost.reverse
  | none => netloc

/-- The `.hostname` accessor: netloc with userinfo removed, lowercased,
bracketed IPv6 literals unwrapped, the port removed.  CPython returns
`None` for an empty result; callers in the repository immediately
replace that with the empty string (`parsed.hostname or ...`), so the
model returns the empty string directly. -/
def hostnameOf (netloc : Str) : Str :=
  let hostinfo := afterLastAt netloc
  match splitFirst '[' hostinfo with
  | some (_, br) => toLowerStr (br.takeWhile (fun c => c ≠ ']'))
  | none => toLowerStr (hostinfo.takeWhile (fun c => c ≠ ':'))

/-- `parsed.hostname or parsed.netloc`, the "effective domain" the code
compares URLs by. -/
def effectiveHost (u : PUrl) : Str :=
  if hostnameOf u.netloc ≠ [] then hostnameOf u.netloc else u.netloc

/-- `urlunparse` / `geturl` of a parse result. -/
def geturlModel (u : PUrl) : Str :=
  let p0 := if u.params ≠ [] then u.path ++ ';' :: u.params else u.path
  let p1 :=
    if u.netloc ≠ [] ∨ ('/' :: '/' :: []).isPrefixOf p0 then
      let p' := if p0 ≠ [] ∧ p0.head? ≠ some '/' then '/' :: p0 else p0
      '/' :: '/' :: (u.netloc ++ p')
    else p0
  let p2 := if u.scheme ≠ [] then u.scheme ++ ':' :: p1 else p1
  let p3 := if u.query ≠ [] then p2 ++ '?' :: u.query else p2
  if u.fragment ≠ [] then p3 ++ '#' :: u.fragment else p3

/-
utils_files.py: path keys, page paths, saving, lookup, resume scanning.
File paths are lists of components relative to the base output
directory; `Path(*directories)` drops empty and single-dot components,
modelled by `pathParts`.
-/

/-- `url_to_path_key` (utils_files.py): the URL path with surrounding
slashes stripped, or the literal key `index` when that is empty. -/
def url_to_path_key (url : Str) : Str :=
  let path := stripChar '/' (urlparseModel url).path
  if path = [] then ('i' :: 'n' :: 'd' :: 'e' :: 'x' :: []) else path

/-- Components kept by `pathlib.Path(*parts)`: empty and `.` components
disappear. -/
def pathParts (dirs : List Str) : List Str :=
  dirs.filter (fun d => d ≠ [] ∧ d ≠ ('.' :: []))

/-- The `<status>-<slug>.html` file name. -/
def pageFileName (status : Nat) (slug : Str) : Str :=
  natToStr status ++ '-' :: slug ++ ('.' :: 'h' :: 't' :: 'm' :: 'l' :: [])

/-- The directory components and slug a URL maps to
(`get_page_path` and `find_page_file` share this computation). -/
def urlDirsSlug (url : Str) : List Str × Str :=
  let path := stripChar '/' (urlparseModel url).path
  if path = [] then ([], ('i' :: 'n' :: 'd' :: 'e' :: 'x' :: []))
  else
    let parts := path.splitOn '/'
    let lastPart := parts.getLastD []
    let slug := if lastPart ≠ [] then lastPart else ('i' :: 'n' :: 'd' :: 'e' :: 'x' :: [])
    (parts.dropLast, slug)

/-- `get_page_path` (utils_files.py), relative to the base directory. -/
def get_page_path (url : Str) (status : Nat) : List Str :=
  pathParts (urlDirsSlug url).1 ++ [pageFileName status (urlDirsSlug url).2]

/-- The modelled file system: an association list from relative paths to
contents, in creation order.  `fsWrite` models `Path.write_text`:
overwrite in place when the path exists, append otherwise. -/
abbrev FS := List (List Str × Str)

def fsWrite (fs : FS) (p : List Str) (content : Str) : FS :=
  if fs.any (fun e => e.1 = p) then
    fs.map (fun e => if e.1 = p then (p, content) else e)
  else fs ++ [(p, content)]

/-- `save_page` (utils_files.py). -/
def save_page (fs : FS) (url : Str) (status : Nat) (content : Str) : FS :=
  fsWrite fs (get_page_path url status) content

/-- `pathlib.PurePath.stem`: the file name with the last extension
removed; a leading-dot-only or extensionless name is returned whole. -/
def stemOf (name : Str) : Str :=
  match splitFirst '.' name.reverse with
  | some (ext, pre) => if pre ≠ [] ∧ ext ≠ [] then pre.reverse else name
  | none => name

/-- Does a file name match the glob pattern `*-<slug>.html`? -/
def globMatch (slug : Str) (name : Str) : Bool :=
  ('-' :: slug ++ ('.' :: 'h' :: 't' :: 'm' :: 'l' :: [])).isSuffixOf name

/-- `find_page_file` (utils_files.py): glob the expected directory for
`*-<slug>.html`, return the first match whose prefix before the first
dash is numeric, together with that number.  Glob enumeration order is
modelled as file creation order. -/
def find_page_file (fs : FS) (url : Str) : Option (List Str × Nat) :=
  let slug := (urlDirsSlug url).2
  let searchDir := pathParts (urlDirsSlug url).1
  let cands := fs.filter
    (fun e => e.1.dropLast = searchDir && globMatch slug (e.1.getLastD []))
  let hit := cands.find? (fun e =>
    match splitFirst '-' (stemOf (e.1.getLastD [])) with
    | some (pre, _) => isDigits pre
    | none => isDigits (stemOf (e.1.getLastD [])))
  hit.map (fun e =>
    let pre := match splitFirst '-' (stemOf (e.1.getLastD [])) with
      | some (p, _) => p
      | none => stemOf (e.1.getLastD [])
    (e.1, strToNat pre))

/-- The key `load_existing_pages` (utils_files.py) derives from one
stored `.html` file: the stem with a numeric status prefix stripped,
recombined with the parent directory components. -/
def pageKeyOfFile (p : List Str) : Option Str :=
  let name := p.getLastD []
  if ('.' :: 'h' :: 't' :: 'm' :: 'l' :: []).isSuffixOf name then
    let st := stemOf name
    let slug := match splitFirst '-' st with
      | some (pre, post) => if isDigits pre then post else st
      | none => st
    let dirs := p.dropLast
    some (if dirs ≠ [] then (List.intercalate ('/' :: []) dirs) ++ '/' :: slug else slug)
  else none

/-- `load_existing_pages` (utils_files.py): the set of keys of all
stored `.html` files, as a deduplicated list. -/
def load_existing_pages (fs : FS) : List Str :=
  (fs.filterMap (fun e => pageKeyOfFile e.1)).dedup

/-
utils_html.py: domain comparison and internal-link extraction.
HTML parsing itself (BeautifulSoup) is outside the embedding: the
anchors href attribute values of the page are the input list, and the
composition urlparse(urljoin(base, href)) is an abstract resolver
about which only the structural invariants of a parse result are
assumed.
-/

/-- `is_same_domain` (utils_html.py): equality of the two hostnames
(`parsed.hostname or ""`). -/
def is_same_domain (url siteUrl : Str) : Bool :=
  hostnameOf (urlparseModel url).netloc = hostnameOf (urlparseModel siteUrl).netloc

/-- Structural invariants `urllib.parse.urlparse` guarantees for every
result, by construction of its splitting algorithm: the netloc
contains no path, query or fragment delimiter, the path no query or
fragment delimiter, the params none of those delimiters, and the query
no fragment delimiter. -/
structure ParsedWF (u : PUrl) : Prop where
  netlocOK : '/' ∉ u.netloc ∧ '?' ∉ u.netloc ∧ '#' ∉ u.netloc
  pathOK : '?' ∉ u.path ∧ '#' ∉ u.path
  paramsOK : '/' ∉ u.params ∧ '?' ∉ u.params ∧ '#' ∉ u.params
  queryOK : '#' ∉ u.query

/-- Python `str.strip()` (whitespace). -/
def pyStrip (s : Str) : Str :=
  ((s.dropWhile Char.isWhitespace).reverse.dropWhile Char.isWhitespace).reverse

/-- The href values `extract_internal_links` skips before resolving:
empty, fragment-only, javascript:, mailto: and tel: links. -/
def skipHref (h : Str) : Bool :=
  h.isEmpty ||
  ('#' :: []).isPrefixOf h ||
  "javascript:".data.isPrefixOf h ||
  "mailto:".data.isPrefixOf h ||
  "tel:".data.isPrefixOf h

/-- One href of `extract_internal_links` (utils_html.py): strip, skip,
resolve against the page URL, keep same-domain http(s) links only, and
normalize (drop query and fragment, strip trailing slashes). Returns
`none` when the href is filtered out. -/
def extractOneLink (resolve : Str → PUrl) (siteDomain : Str) (href : Str) : Option Str :=
  let h := pyStrip href
  if skipHref h then none
  else
    let parsed := resolve h
    let linkDomain := if hostnameOf parsed.netloc ≠ [] then hostnameOf parsed.netloc
                      else parsed.netloc
    if linkDomain ≠ siteDomain then none
    else if ¬(parsed.scheme = "http".data ∨ parsed.scheme = "https".data) then none
    else
      let normalized := rstripChar '/' (geturlModel { parsed with fragment := [], query := [] })
      if normalized ≠ [] then some normalized else none

/-- `extract_internal_links` (utils_html.py) over the list of href
attribute values found in the page, the set modelled as a
deduplicating list. -/
def extract_internal_links (resolve : Str → PUrl) (siteUrl : Str) (hrefs : List Str) :
    List Str :=
  let siteParsed := urlparseModel siteUrl
  let siteDomain := if hostnameOf siteParsed.netloc ≠ [] then hostnameOf siteParsed.netloc
                    else siteParsed.netloc
  hrefs.foldl (fun acc h =>
    match extractOneLink resolve siteDomain h with
    | some link => if link ∈ acc then acc else acc ++ [link]
    | none => acc) []

/-
1-scraper.py: the crawl engine.  `fetch_page` outcomes are supplied by
a finite oracle (`Site.pages`); link extraction and the external
canonical check depend on HTML parsing and are abstract functions of
the body (and page URL).  Batches run their fetches concurrently but
merge results in input order (`asyncio.gather` preserves order), so a
batch is a left fold over its URL list.  The state carries, besides
the visited keys and statistics, the ghost record of every fetch
issued and every save performed, which the theorems are about.
-/

/-- A `fetch_page` result: `(status_code, redirect_url, body)`; the
redirect URL is empty unless the status is 3xx with a Location header,
and a transport error is status 0. -/
structure Outcome where
  status : Nat
  redirectUrl : Str
  body : Str
deriving Repr, DecidableEq

/-- The crawl environment: the fetch oracle as a finite URL-outcome
table (URLs absent from it fail with status 0, as a dead host does),
the link extractor (body, page URL), the external-canonical detector
and the root site URL. -/
structure Site where
  pages : List (Str × Outcome)
  links : Str → Str → List Str
  isExternalCanonical : Str → Bool
  siteUrl : Str

/-- Fetch one URL against the oracle. -/
def fetchO (site : Site) (url : Str) : Outcome :=
  match site.pages.find? (fun p => p.1 = url) with
  | some p => p.2
  | none => ⟨0, [], "Error: request timed out".data⟩

/-- The session `Counter`: named counters plus the per-status-class
counters (class `c` holds statuses with `status / 100 = c`). -/
structure Stats where
  errors : Nat
  total : Nat
  internalRedirects : Nat
  externalRedirects : Nat
  externalCanonicals : Nat
  cls : Nat → Nat

def Stats.empty : Stats := ⟨0, 0, 0, 0, 0, fun _ => 0⟩

/-- Record one saved page of status `s`: `stats[f-status-class] += 1`
and `stats[total] += 1`. -/
def Stats.bumpSaved (st : Stats) (s : Nat) : Stats :=
  { st with total := st.total + 1,
            cls := fun c => if c = s / 100 then st.cls c + 1 else st.cls c }

/-- Crawl state: the visited path keys (insertion order, one entry per
key), and the ghost histories of fetches, saves and enqueued redirect
targets. -/
structure CrawlSt where
  visited : List Str
  fetched : List Str
  saved : List (Str × Nat)
  redirectEnqueues : Nat
  stats : Stats

/-- Accumulator of one `download_batch` call: the crawl state plus the
batch outputs `downloaded` and `redirect_targets`. -/
structure BatchAcc where
  st : CrawlSt
  downloaded : List (Str × Nat × Str)
  targets : List Str

/-- Processing of one fetch result inside `download_batch`
(1-scraper.py lines 94-141). -/
def stepResult (site : Site) (a : BatchAcc) (url : Str) : BatchAcc :=
  let o := fetchO site url
  let stF := { a.st with fetched := a.st.fetched ++ [url] }
  if o.status = 0 then
    { a with st := { stF with stats := { stF.stats with errors := stF.stats.errors + 1 } } }
  else
    let st1 := { stF with saved := stF.saved ++ [(url_to_path_key url, o.status)],
                          stats := stF.stats.bumpSaved o.status }
    if 300 ≤ o.status ∧ o.status < 400 then
      if o.redirectUrl ≠ [] ∧ is_same_domain o.redirectUrl site.siteUrl then
        let k : Str := url_to_path_key o.redirectUrl
        if k ∈ (st1.visited : List Str) then
          { a with st := { st1 with stats :=
              { st1.stats with internalRedirects := st1.stats.internalRedirects + 1 } } }
        else
          { a with
            st := { st1 with
                    visited := st1.visited ++ [k],
                    redirectEnqueues := st1.redirectEnqueues + 1,
                    stats :=
                      { st1.stats with internalRedirects := st1.stats.internalRedirects + 1 } },
            targets := a.targets ++ [o.redirectUrl] }
      else if o.redirectUrl ≠ [] then
        { a with st := { st1 with stats :=
            { st1.stats with externalRedirects := st1.stats.externalRedirects + 1 } } }
      else { a with st := st1 }
    else if 200 ≤ o.status ∧ o.status < 300 then
      if site.isExternalCanonical o.body then
        { a with st := { st1 with stats :=
            { st1.stats with externalCanonicals := st1.stats.externalCanonicals + 1 } } }
      else { a with st := st1, downloaded := a.downloaded ++ [(url, o.status, o.body)] }
    else { a with st := st1 }

/-- `download_batch` (1-scraper.py). -/
def download_batch (site : Site) (st : CrawlSt) (urls : List Str) : BatchAcc :=
  urls.foldl (stepResult site) ⟨st, [], []⟩

/-- The `while redirect_targets` sub-loop of `main`: batch-download the
targets, accumulate their followable bodies, repeat on the new targets.
The boolean reports whether the loop ran to completion within the
fuel. -/
def redirectLoop (site : Site) :
    Nat → CrawlSt → List Str → List (Str × Str) → CrawlSt × List (Str × Str) × Bool
  | 0, st, targets, bodies => (st, bodies, targets.isEmpty)
  | fuel + 1, st, targets, bodies =>
    if targets.isEmpty then (st, bodies, true)
    else
      let a := download_batch site st targets
      redirectLoop site fuel a.st a.targets
        (bodies ++ a.downloaded.map (fun d => (d.1, d.2.2)))

/-- Budget-checked seed selection (1-scraper.py lines 254-259): claim a
sitemap URL when its key is unvisited and the visited count is below
`maxPages + len(existing_keys)`. -/
def selectSeeds (maxTotal : Nat) (visited : List Str) (urls : List Str) :
    List Str × List Str :=
  urls.foldl (fun acc url =>
    let k := url_to_path_key url
    if k ∉ acc.1 ∧ acc.1.length < maxTotal then (acc.1 ++ [k], acc.2 ++ [url])
    else acc) (visited, [])

/-- Link extraction and visited-set claiming of one frontier iteration
(1-scraper.py lines 292-299): every new key is claimed, the fetch list
grows in extraction order. -/
def collectNewUrls (site : Site) (visited : List Str) (bodies : List (Str × Str)) :
    List Str × List Str :=
  bodies.foldl (fun acc pb =>
    (site.links pb.2 pb.1).foldl (fun acc2 link =>
      let k := url_to_path_key link
      if k ∈ acc2.1 then acc2 else (acc2.1 ++ [k], acc2.2 ++ [link])) acc) (visited, [])

/-- The frontier loop (1-scraper.py lines 289-329), `maxTotal` being
`MAX_PAGES + len(existing_keys)`.  Natural subtraction matches the
Python loop guard: a negative remaining budget also exits. -/
def frontierLoop (site : Site) (maxTotal innerFuel : Nat) :
    Nat → CrawlSt → List (Str × Str) → CrawlSt × Bool
  | 0, st, _ => (st, maxTotal - st.visited.length = 0)
  | fuel + 1, st, bodies =>
    if maxTotal - st.visited.length = 0 then (st, true)
    else
      let c := collectNewUrls site st.visited bodies
      let newUrls := if c.2.length > maxTotal - st.visited.length
        then c.2.take (maxTotal - st.visited.length) else c.2
      if newUrls.isEmpty then ({ st with visited := c.1 }, true)
      else
        let a := download_batch site { st with visited := c.1 } newUrls
        let r := redirectLoop site innerFuel a.st a.targets
          (a.downloaded.map (fun d => (d.1, d.2.2)))
        if r.2.2 then frontierLoop site maxTotal innerFuel fuel r.1 r.2.1
        else (r.1, false)

/-- The whole crawl of `main` after sitemap resolution (steps 4 and 5):
seed selection, the seed batch with its redirect rounds, then the
frontier loop.  `done` is true when every loop ran to completion
within its fuel. -/
def crawl (site : Site) (sitemapUrls existingKeys : List Str)
    (maxPages innerFuel outerFuel : Nat) : CrawlSt × Bool :=
  let maxTotal := maxPages + existingKeys.length
  let sel := selectSeeds maxTotal existingKeys sitemapUrls
  let st0 : CrawlSt := ⟨sel.1, [], [], 0, Stats.empty⟩
  if sel.2.isEmpty then
    frontierLoop site maxTotal innerFuel outerFuel st0 []
  else
    let a := download_batch site st0 sel.2
    let r := redirectLoop site innerFuel a.st a.targets
      (a.downloaded.map (fun d => (d.1, d.2.2)))
    let fr := frontierLoop site maxTotal innerFuel outerFuel r.1 r.2.1
    (fr.1, r.2.2 && fr.2)

/-
fetch_sitemap_urls (1-scraper.py lines 145-194): manual redirect
resolution bounded at five fetch attempts, then the skip test
`status == 0 or status >= 400`, then saving and parsing.  The XML
parser (`parse_sitemap`, BeautifulSoup based) is an abstract function
from a body to (page URLs, sub-sitemap URLs).
-/

/-- The `for _ in range(5)` redirect-chasing loop: fetch, follow the
Location of a 3xx response, stop after at most `fuel` fetches; returns
the outcome of the last fetch performed together with the number of
fetches issued.  The crawler always calls it with fuel 5. -/
def resolveRedirects (site : Site) : Nat → Str → Outcome × Nat
  | 0, _ => (⟨0, [], []⟩, 0)
  | fuel + 1, url =>
    let o := fetchO site url
    if 300 ≤ o.status ∧ o.status < 400 ∧ o.redirectUrl ≠ [] then
      match fuel with
      | 0 => (o, 1)
      | _ + 1 =>
        let (o2, n) := resolveRedirects site fuel o.redirectUrl
        (o2, n + 1)
    else (o, 1)

/-- State of `fetch_sitemap_urls`: collected page URLs, the work queue,
the seen set, the raw files saved, and the sitemaps skipped with a
warning (a ghost record). -/
structure SitemapSt where
  pageUrls : List Str
  queue : List Str
  fetchedSitemaps : List Str
  rawSaved : List (Str × Str)
  skipped : List Str

/-- The body of the `while sitemaps_to_fetch` loop for one unseen
sitemap URL `cur` (the queue already popped): resolve redirects, skip
on status 0 or >= 400, otherwise save the raw body and parse it. -/
def sitemapStep (site : Site) (parse : Str → List Str × List Str)
    (st : SitemapSt) (cur : Str) : SitemapSt :=
  let o := (resolveRedirects site 5 cur).1
  if o.status = 0 ∨ 400 ≤ o.status then
    { st with skipped := st.skipped ++ [cur] }
  else
    let lastSeg := (cur.splitOn '/').getLastD []
    let fname := if lastSeg ≠ [] then lastSeg else "sitemap.xml".data
    let (pus, subs) := parse o.body
    { st with rawSaved := st.rawSaved ++ [(fname, o.body)],
              pageUrls := st.pageUrls ++ pus,
              queue := st.queue ++ subs }

/-- `fetch_sitemap_urls` as a fuelled loop over the sitemap queue. -/
def sitemapLoop (site : Site) (parse : Str → List Str × List Str) :
    Nat → SitemapSt → SitemapSt × Bool
  | 0, st => (st, st.queue.isEmpty)
  | fuel + 1, st =>
    match st.queue with
    | [] => (st, true)
    | cur :: rest =>
      if cur ∈ (st.fetchedSitemaps : List Str) then
        sitemapLoop site parse fuel { st with queue := rest }
      else
        sitemapLoop site parse fuel
          (sitemapStep site parse
            { st with queue := rest, fetchedSitemaps := st.fetchedSitemaps ++ [cur] } cur)

/-- `fetch_sitemap_urls` from a single root sitemap URL. -/
def fetch_sitemap_urls (site : Site) (parse : Str → List Str × List Str)
    (sitemapUrl : Str) (fuel : Nat) : SitemapSt × Bool :=
  sitemapLoop site parse fuel ⟨[], [sitemapUrl], [], [], []⟩

/-
Shared lemmas about the string primitives and the page codec.
-/

theorem isDigit_ne_dash {c : Char} (h : c.isDigit = true) : c ≠ '-' := by
  intro he
  subst he
  exact absurd h (by decide)

theorem mem_natToStr_isDigit {n : Nat} {c : Char} (h : c ∈ natToStr n) :
    c.isDigit = true := by
  have hall := natToStr_digits n
  rw [List.all_eq_true] at hall
  exact hall c h

theorem isDigits_natToStr (s : Nat) : isDigits (natToStr s) = true := by
  have h1 : (natToStr s).isEmpty = false := by
    cases h : natToStr s with
    | nil => exact absurd h (natToStr_ne_nil s)
    | cons a t => rfl
  simp [isDigits, h1, natToStr_digits s]

theorem splitFirst_of_not_mem {c : Char} {s : Str} (h : c ∉ s) :
    splitFirst c s = none := by
  induction s with
  | nil => rfl
  | cons a t ih =>
    have ha : a ≠ c := fun he => h (he ▸ List.mem_cons_self a t)
    simp only [splitFirst, if_neg ha]
    rw [ih (fun hm => h (List.mem_cons_of_mem _ hm))]
    rfl

theorem splitFirst_first_hit {c : Char} {xs t : Str} (h : c ∉ xs) :
    splitFirst c (xs ++ c :: t) = some (xs, t) := by
  induction xs with
  | nil => simp [splitFirst]
  | cons a r ih =>
    have ha : a ≠ c := fun he => h (he ▸ List.mem_cons_self a r)
    simp only [List.cons_append, splitFirst, if_neg ha]
    show Option.map (fun p => (a :: p.1, p.2)) (splitFirst c (r ++ c :: t)) = some (a :: r, t)
    rw [ih (fun hm => h (List.mem_cons_of_mem _ hm))]
    rfl

theorem stemOf_append_html {x : Str} (hx : x ≠ []) :
    stemOf (x ++ ('.' :: 'h' :: 't' :: 'm' :: 'l' :: [])) = x := by
  unfold stemOf
  rw [List.reverse_append]
  have hrev : ('.' :: 'h' :: 't' :: 'm' :: 'l' :: []).reverse =
      'l' :: 'm' :: 't' :: 'h' :: '.' :: [] := by decide
  rw [hrev]
  have hsplit : splitFirst '.' ('l' :: 'm' :: 't' :: 'h' :: '.' :: ([] : Str) ++ x.reverse) =
      some (('l' :: 'm' :: 't' :: 'h' :: []), x.reverse) := by
    have : ('l' :: 'm' :: 't' :: 'h' :: '.' :: ([] : Str)) ++ x.reverse =
        ('l' :: 'm' :: 't' :: 'h' :: []) ++ '.' :: x.reverse := rfl
    rw [this]
    exact splitFirst_first_hit (by decide)
  simp only [hsplit]
  have hxr : x.reverse ≠ [] := by
    simpa using hx
  simp [hxr]

theorem stemOf_pageFileName (s : Nat) (slug : Str) :
    stemOf (pageFileName s slug) = natToStr s ++ '-' :: slug := by
  have heq : pageFileName s slug =
      (natToStr s ++ '-' :: slug) ++ ('.' :: 'h' :: 't' :: 'm' :: 'l' :: []) := by
    simp [pageFileName]
  rw [heq, stemOf_append_html]
  intro hcon
  exact natToStr_ne_nil s (List.append_eq_nil.mp hcon).1

theorem splitFirst_pageStem (s : Nat) (slug : Str) :
    splitFirst '-' (natToStr s ++ '-' :: slug) = some (natToStr s, slug) :=
  splitFirst_first_hit (fun hm => isDigit_ne_dash (mem_natToStr_isDigit hm) rfl)

theorem pageFileName_inj {s1 s2 : Nat} {slug : Str}
    (h : pageFileName s1 slug = pageFileName s2 slug) : s1 = s2 := by
  have h1 := congrArg (List.takeWhile (fun c => decide (c ≠ '-'))) h
  have hval : ∀ s : Nat,
      (pageFileName s slug).takeWhile (fun c => decide (c ≠ '-')) = natToStr s := by
    intro s
    have hshape : pageFileName s slug =
        natToStr s ++ '-' :: (slug ++ ('.' :: 'h' :: 't' :: 'm' :: 'l' :: [])) := by
      simp [pageFileName]
    have hpos : ∀ a ∈ natToStr s, (fun c => decide (c ≠ '-')) a = true := by
      intro a ha
      simpa using isDigit_ne_dash (mem_natToStr_isDigit ha)
    rw [hshape, List.takeWhile_append_of_pos hpos,
      List.takeWhile_cons_of_neg (by decide)]
    simp
  rw [hval s1, hval s2] at h1
  exact natToStr_injective h1

theorem get_page_path_ne {url : Str} {s1 s2 : Nat} (h : s1 ≠ s2) :
    get_page_path url s1 ≠ get_page_path url s2 := by
  intro he
  unfold get_page_path at he
  have := List.append_cancel_left he
  exact h (pageFileName_inj (by injection this))

theorem globMatch_pageFileName (s : Nat) (slug : Str) :
    globMatch slug (pageFileName s slug) = true := by
  unfold globMatch pageFileName
  rw [List.isSuffixOf_iff_suffix]
  exact ⟨natToStr s, by simp⟩

/-
C7. Path-key determinism.
-/

/-- C7: `url_to_path_key` trims the trailing slash, and both the bare
host and the root path map to the literal key `index`. -/
theorem c7_path_key_determinism :
    url_to_path_key ("https://x.com/a/b/".data) = url_to_path_key ("https://x.com/a/b".data) ∧
    url_to_path_key ("https://x.com/".data) = url_to_path_key ("https://x.com".data) ∧
    url_to_path_key ("https://x.com/".data) = "index".data ∧
    url_to_path_key ("https://x.com".data) = "index".data := by decide

/-
C3. Stored-page uniqueness.
-/

/-- The number of stored files whose recovered resume key is `key`. -/
def countKeyFiles (fs : FS) (key : Str) : Nat :=
  (fs.filter (fun e => pageKeyOfFile e.1 = some key)).length

/-- C3 counterexample: saving `https://x.com/p` under status 200 and
then under status 404 leaves two stored files for the path-key `p`
(`200-p.html` and `404-p.html`), not one — the second save does not
overwrite the first because the status code is part of the file name. -/
theorem c3_counterexample :
    countKeyFiles
      (save_page (save_page [] ("https://x.com/p".data) 200 ("a".data))
        ("https://x.com/p".data) 404 ("b".data)) ("p".data) = 2 ∧
    countKeyFiles
      (save_page (save_page [] ("https://x.com/p".data) 200 ("a".data))
        ("https://x.com/p".data) 404 ("b".data)) ("p".data) ≠ 1 := by decide

/-- C3 amended: uniqueness holds per (path-key, status): re-saving the
same URL with the same status overwrites in place and leaves one file,
while re-saving with a different status creates a second file next to
the first (the file name embeds the status code), leaving two. -/
theorem c3_per_status_uniqueness (url : Str) (s1 s2 : Nat) (b1 b2 : Str) :
    (s1 = s2 →
      save_page (save_page [] url s1 b1) url s2 b2 = [(get_page_path url s2, b2)]) ∧
    (s1 ≠ s2 →
      save_page (save_page [] url s1 b1) url s2 b2 =
        [(get_page_path url s1, b1), (get_page_path url s2, b2)]) := by
  have hfirst : save_page [] url s1 b1 = [(get_page_path url s1, b1)] := by
    simp [save_page, fsWrite]
  constructor
  · intro he
    subst he
    rw [hfirst]
    simp [save_page, fsWrite]
  · intro hne
    rw [hfirst]
    have hpne : get_page_path url s1 ≠ get_page_path url s2 := get_page_path_ne hne
    simp [save_page, fsWrite, hpne]

/-- C3 amended, witnessed at url `https://x.com/p`, statuses 200 and
404. -/
theorem c3_per_status_uniqueness_witness :
    save_page (save_page [] ("https://x.com/p".data) 200 ("a".data))
        ("https://x.com/p".data) 404 ("b".data) =
      [(get_page_path ("https://x.com/p".data) 200, "a".data),
       (get_page_path ("https://x.com/p".data) 404, "b".data)] :=
  (c3_per_status_uniqueness ("https://x.com/p".data) 200 404 ("a".data) ("b".data)).2
    (by decide)

/-
C5. Status-prefix round-trip.
-/

/-- C5: after `save_page`, `find_page_file` on the same URL returns the
saved path together with the saved status code, provided no other file
in the search directory matches the slug glob `*-<slug>.html`. -/
theorem c5_status_roundtrip (fs : FS) (url : Str) (s : Nat) (b : Str)
    (hno : ∀ e ∈ fs, ¬(e.1.dropLast = pathParts (urlDirsSlug url).1 ∧
      globMatch (urlDirsSlug url).2 (e.1.getLastD []) = true)) :
    find_page_file (save_page fs url s b) url = some (get_page_path url s, s) := by
  have hpth : get_page_path url s =
      pathParts (urlDirsSlug url).1 ++ [pageFileName s (urlDirsSlug url).2] := rfl
  have hdrop : (get_page_path url s).dropLast = pathParts (urlDirsSlug url).1 := by
    rw [hpth]
    simp
  have hlast : (get_page_path url s).getLastD [] = pageFileName s (urlDirsSlug url).2 := by
    rw [hpth]
    simp [List.getLastD_concat]
  have hmatch : ((get_page_path url s).dropLast = pathParts (urlDirsSlug url).1 ∧
      globMatch (urlDirsSlug url).2 ((get_page_path url s).getLastD []) = true) := by
    refine ⟨hdrop, ?_⟩
    rw [hlast]
    exact globMatch_pageFileName _ _
  have hnew : save_page fs url s b = fs ++ [(get_page_path url s, b)] := by
    have hany : fs.any (fun e => e.1 = get_page_path url s) = false := by
      rw [List.any_eq_false]
      intro e he hcon
      have he1 : e.1 = get_page_path url s := by simpa using hcon
      refine hno e he ?_
      rw [he1]
      exact hmatch
    simp [save_page, fsWrite, hany]
  rw [hnew]
  unfold find_page_file
  have hfilter : (fs ++ [(get_page_path url s, b)]).filter
      (fun e => e.1.dropLast = pathParts (urlDirsSlug url).1 &&
        globMatch (urlDirsSlug url).2 (e.1.getLastD [])) = [(get_page_path url s, b)] := by
    rw [List.filter_append]
    have h1 : fs.filter (fun e => e.1.dropLast = pathParts (urlDirsSlug url).1 &&
        globMatch (urlDirsSlug url).2 (e.1.getLastD [])) = [] := by
      rw [List.filter_eq_nil_iff]
      intro e he hcon
      rw [Bool.and_eq_true] at hcon
      exact hno e he ⟨by simpa using hcon.1, hcon.2⟩
    rw [h1, List.nil_append]
    have hmatch2 : globMatch (urlDirsSlug url).2
        ((get_page_path url s).getLast?.getD []) = true := by
      rw [← List.getLastD_eq_getLast?, hlast]
      exact globMatch_pageFileName _ _
    simp [hmatch.1, hmatch.2, hmatch2]
  simp only [hfilter]
  have hstem1 : stemOf ((get_page_path url s).getLastD []) =
      natToStr s ++ '-' :: (urlDirsSlug url).2 := by
    rw [hlast, stemOf_pageFileName]
  have hstem2 : stemOf ((get_page_path url s).getLast?.getD []) =
      natToStr s ++ '-' :: (urlDirsSlug url).2 := by
    rw [← List.getLastD_eq_getLast?]
    exact hstem1
  simp only [List.find?_cons, hstem1, hstem2, splitFirst_pageStem, isDigits_natToStr,
    Option.map_some, strToNat_natToStr]
  simp [hstem1, hstem2, splitFirst_pageStem, isDigits_natToStr, strToNat_natToStr]

/-- C5 witnessed on an empty store at `https://x.com/blog/post-1`,
status 200. -/
theorem c5_status_roundtrip_witness :
    find_page_file (save_page [] ("https://x.com/blog/post-1".data) 200 ("B".data))
        ("https://x.com/blog/post-1".data) =
      some (get_page_path ("https://x.com/blog/post-1".data) 200, 200) :=
  c5_status_roundtrip [] ("https://x.com/blog/post-1".data) 200 ("B".data)
    (by intro e he; exact absurd he (List.not_mem_nil e))

/-
Behaviour of one `download_batch` step and of whole batches.
-/

/-- The save event `stepResult` performs for a URL: none on a transport
error, otherwise the path-key with the true status code. -/
def saveOf (site : Site) (url : Str) : Option (Str × Nat) :=
  let o := fetchO site url
  if o.status = 0 then none else some (url_to_path_key url, o.status)

/-- Fetching `url` yields an internal redirect whose target has
path-key `k`. -/
def redirectsTo (site : Site) (url k : Str) : Prop :=
  let o := fetchO site url
  o.status ≠ 0 ∧ 300 ≤ o.status ∧ o.status < 400 ∧ o.redirectUrl ≠ [] ∧
    is_same_domain o.redirectUrl site.siteUrl = true ∧ url_to_path_key o.redirectUrl = k

instance redirectsToDec (site : Site) (u k : Str) : Decidable (redirectsTo site u k) :=
  decidable_of_iff ((fetchO site u).status ≠ 0 ∧ 300 ≤ (fetchO site u).status ∧
    (fetchO site u).status < 400 ∧ (fetchO site u).redirectUrl ≠ [] ∧
    is_same_domain (fetchO site u).redirectUrl site.siteUrl = true ∧
    url_to_path_key (fetchO site u).redirectUrl = k) Iff.rfl

theorem countP_eq_one_of_nodup_mem {l : List Str} {a : Str} (hn : l.Nodup) (ha : a ∈ l) :
    l.countP (fun x => x = a) = 1 := by
  induction l with
  | nil => exact absurd ha (List.not_mem_nil a)
  | cons b t ih =>
    rw [List.nodup_cons] at hn
    rcases List.mem_cons.mp ha with he | hm
    · subst he
      rw [List.countP_cons]
      have hz : t.countP (fun x => x = a) = 0 := by
        rw [List.countP_eq_zero]
        intro x hx
        simp only [decide_eq_true_eq]
        intro hcon
        exact hn.1 (hcon ▸ hx)
      simp [hz]
    · have hb : ¬(b = a) := fun he => hn.1 (he ▸ hm)
      rw [List.countP_cons]
      simp [hb, ih hn.2 hm]

theorem fetchO_mem {site : Site} {url : Str} (h : (fetchO site url).status ≠ 0) :
    ∃ p ∈ site.pages, fetchO site url = p.2 := by
  unfold fetchO at h ⊢
  cases hf : site.pages.find? (fun p => p.1 = url) with
  | none =>
    rw [hf] at h
    exact absurd rfl h
  | some p =>
    exact ⟨p, List.mem_of_find?_eq_some hf, rfl⟩

theorem stepResult_fetched (site : Site) (a : BatchAcc) (url : Str) :
    (stepResult site a url).st.fetched = a.st.fetched ++ [url] := by
  simp only [stepResult]
  split_ifs <;> rfl

theorem stepResult_saved (site : Site) (a : BatchAcc) (url : Str) :
    (stepResult site a url).st.saved = a.st.saved ++ (saveOf site url).toList := by
  simp only [stepResult, saveOf]
  split_ifs <;> simp

theorem stepResult_downloaded (site : Site) (a : BatchAcc) (url : Str) :
    (stepResult site a url).downloaded = a.downloaded ∨
    (stepResult site a url).downloaded =
      a.downloaded ++ [(url, (fetchO site url).status, (fetchO site url).body)] := by
  simp only [stepResult]
  split_ifs <;> simp

theorem stepResult_errors (site : Site) (a : BatchAcc) (url : Str) :
    (stepResult site a url).st.stats.errors = a.st.stats.errors +
      (if (fetchO site url).status = 0 then 1 else 0) := by
  simp only [stepResult, Stats.bumpSaved]
  split_ifs <;> rfl

theorem stepResult_total (site : Site) (a : BatchAcc) (url : Str) :
    (stepResult site a url).st.stats.total = a.st.stats.total +
      (saveOf site url).toList.length := by
  simp only [stepResult, saveOf, Stats.bumpSaved]
  split_ifs <;> simp

theorem stepResult_cls (site : Site) (a : BatchAcc) (url : Str) (c : Nat) :
    (stepResult site a url).st.stats.cls c = a.st.stats.cls c +
      (saveOf site url).toList.countP (fun e => e.2 / 100 = c) := by
  simp only [stepResult, saveOf, Stats.bumpSaved]
  split_ifs <;> by_cases hc : c = (fetchO site url).status / 100 <;>
    simp [hc, List.countP_cons, eq_comm]

theorem stepResult_frontier (site : Site) (a : BatchAcc) (url : Str) :
    ((stepResult site a url).targets = a.targets ∧
     (stepResult site a url).st.visited = a.st.visited ∧
     (stepResult site a url).st.redirectEnqueues = a.st.redirectEnqueues ∧
     (∀ k, redirectsTo site url k → k ∈ a.st.visited)) ∨
    ((stepResult site a url).targets = a.targets ++ [(fetchO site url).redirectUrl] ∧
     (stepResult site a url).st.visited =
       a.st.visited ++ [url_to_path_key (fetchO site url).redirectUrl] ∧
     (stepResult site a url).st.redirectEnqueues = a.st.redirectEnqueues + 1 ∧
     url_to_path_key (fetchO site url).redirectUrl ∉ a.st.visited ∧
     redirectsTo site url (url_to_path_key (fetchO site url).redirectUrl) ∧
     (∃ p ∈ site.pages, (fetchO site url).redirectUrl = p.2.redirectUrl)) := by
  by_cases h1 : (fetchO site url).status = 0
  · refine Or.inl ⟨?_, ?_, ?_, ?_⟩
    · simp [stepResult, h1]
    · simp [stepResult, h1]
    · simp [stepResult, h1]
    · intro k hk
      exact absurd h1 hk.1
  · by_cases h2 : 300 ≤ (fetchO site url).status ∧ (fetchO site url).status < 400
    · by_cases h3 : (fetchO site url).redirectUrl ≠ [] ∧
        is_same_domain (fetchO site url).redirectUrl site.siteUrl = true
      · by_cases h4 : url_to_path_key (fetchO site url).redirectUrl ∈ a.st.visited
        · refine Or.inl ⟨?_, ?_, ?_, ?_⟩
          · simp [stepResult, h1, h2, h3, h4]
          · simp [stepResult, h1, h2, h3, h4]
          · simp [stepResult, h1, h2, h3, h4]
          · intro k hk
            rw [← hk.2.2.2.2.2]
            exact h4
        · refine Or.inr ⟨?_, ?_, ?_, h4, ⟨h1, h2.1, h2.2, h3.1, h3.2, rfl⟩, ?_⟩
          · simp [stepResult, h1, h2, h3, h4]
          · simp [stepResult, h1, h2, h3, h4]
          · simp [stepResult, h1, h2, h3, h4]
          · obtain ⟨p, hp, he⟩ := fetchO_mem h1
            exact ⟨p, hp, by rw [he]⟩
      · refine Or.inl ⟨?_, ?_, ?_, fun k hk => absurd ⟨hk.2.2.2.1, hk.2.2.2.2.1⟩ h3⟩ <;>
        · simp only [stepResult]
          split_ifs <;> simp_all
    · refine Or.inl ⟨?_, ?_, ?_, fun k hk => absurd ⟨hk.2.1, hk.2.2.1⟩ h2⟩ <;>
      · simp only [stepResult]
        split_ifs <;> simp_all

/-- Master specification of a `download_batch` fold: the enqueued
redirect targets extend the visited keys in lockstep, their keys are
fresh and pairwise distinct, every internal redirect discovered by the
batch is enqueued when its key was unclaimed, targets come from site
outcomes, and the fetch, save and statistics histories advance by the
batch contents. -/
theorem foldStep_spec (site : Site) (urls : List Str) : ∀ a : BatchAcc,
    ∃ tnew : List Str,
      (urls.foldl (stepResult site) a).targets = a.targets ++ tnew ∧
      (urls.foldl (stepResult site) a).st.visited =
        a.st.visited ++ tnew.map url_to_path_key ∧
      (tnew.map url_to_path_key).Nodup ∧
      (∀ k ∈ tnew.map url_to_path_key, k ∉ a.st.visited) ∧
      (∀ k, k ∉ a.st.visited → (∃ u ∈ urls, redirectsTo site u k) →
        k ∈ tnew.map url_to_path_key) ∧
      (∀ t ∈ tnew, ∃ p ∈ site.pages, t = p.2.redirectUrl) ∧
      (urls.foldl (stepResult site) a).st.fetched = a.st.fetched ++ urls ∧
      (urls.foldl (stepResult site) a).st.saved =
        a.st.saved ++ urls.filterMap (saveOf site) ∧
      (urls.foldl (stepResult site) a).st.redirectEnqueues =
        a.st.redirectEnqueues + tnew.length ∧
      (urls.foldl (stepResult site) a).st.stats.errors = a.st.stats.errors +
        urls.countP (fun u => (fetchO site u).status = 0) ∧
      (urls.foldl (stepResult site) a).st.stats.total = a.st.stats.total +
        (urls.filterMap (saveOf site)).length ∧
      (∀ c, (urls.foldl (stepResult site) a).st.stats.cls c = a.st.stats.cls c +
        (urls.filterMap (saveOf site)).countP (fun e => e.2 / 100 = c)) := by
  induction urls with
  | nil =>
    intro a
    refine ⟨[], ?_, ?_, ?_, ?_, ?_, fun t ht => absurd ht (List.not_mem_nil t),
      ?_, ?_, ?_, ?_, ?_, ?_⟩ <;> simp
  | cons u us ih =>
    intro a
    obtain ⟨tnew, h1, h2, h3, h4, h5, h6, h7, h8, h9, h10, h11, h12⟩ :=
      ih (stepResult site a u)
    have hfetch := stepResult_fetched site a u
    have hsave := stepResult_saved site a u
    have herr := stepResult_errors site a u
    have htot := stepResult_total site a u
    have hcls := stepResult_cls site a u
    rcases stepResult_frontier site a u with
      ⟨ht, hv, hre, hmem⟩ | ⟨ht, hv, hre, hnotmem, hredir, hprov⟩
    · refine ⟨tnew, ?_, ?_, h3, ?_, ?_, h6, ?_, ?_, ?_, ?_, ?_, ?_⟩
      · rw [List.foldl_cons, h1, ht]
      · rw [List.foldl_cons, h2, hv]
      · intro k hk
        rw [← hv]
        exact h4 k hk
      · intro k hkv hex
        obtain ⟨w, hw, hred⟩ := hex
        rcases List.mem_cons.mp hw with he | hm
        · subst he
          exact absurd (hmem k hred) hkv
        · exact h5 k (by rw [hv]; exact hkv) ⟨w, hm, hred⟩
      · rw [List.foldl_cons, h7, hfetch]
        simp
      · rw [List.foldl_cons, h8, hsave, List.filterMap_cons]
        cases hso : saveOf site u <;> simp [hso]
      · rw [List.foldl_cons, h9, hre]
      · rw [List.foldl_cons, h10, herr, List.countP_cons]
        by_cases h0 : (fetchO site u).status = 0 <;> simp [h0] <;> omega
      · rw [List.foldl_cons, h11, htot, List.filterMap_cons]
        cases hso : saveOf site u <;> simp [hso] <;> omega
      · intro c
        rw [List.foldl_cons, h12 c, hcls c, List.filterMap_cons]
        cases hso : saveOf site u <;> simp [hso, List.countP_cons] <;> omega
    · refine ⟨(fetchO site u).redirectUrl :: tnew, ?_, ?_, ?_, ?_, ?_, ?_, ?_, ?_, ?_,
        ?_, ?_, ?_⟩
      · rw [List.foldl_cons, h1, ht]
        simp
      · rw [List.foldl_cons, h2, hv]
        simp
      · refine List.nodup_cons.mpr ⟨?_, h3⟩
        intro hcon
        have := h4 _ hcon
        rw [hv] at this
        exact this (List.mem_append_right _ (List.mem_singleton.mpr rfl))
      · intro k hk
        rcases List.mem_cons.mp hk with he | hm
        · rw [he]
          exact hnotmem
        · intro hcon
          exact h4 k hm (by rw [hv]; exact List.mem_append_left _ hcon)
      · intro k hkv hex
        obtain ⟨w, hw, hred⟩ := hex
        rcases List.mem_cons.mp hw with he | hm
        · subst he
          have : k = url_to_path_key (fetchO site w).redirectUrl := hred.2.2.2.2.2.symm
          rw [this]
          exact List.mem_cons_self _ _
        · by_cases hk0 : k = url_to_path_key (fetchO site u).redirectUrl
          · rw [hk0]
            exact List.mem_cons_self _ _
          · have hnotv : k ∉ (stepResult site a u).st.visited := by
              rw [hv]
              intro hcon
              rcases List.mem_append.mp hcon with hl | hr
              · exact hkv hl
              · exact hk0 (List.mem_singleton.mp hr)
            exact List.mem_cons_of_mem _ (h5 k hnotv ⟨w, hm, hred⟩)
      · intro t htm
        rcases List.mem_cons.mp htm with he | hm
        · rw [he]
          exact hprov
        · exact h6 t hm
      · rw [List.foldl_cons, h7, hfetch]
        simp
      · rw [List.foldl_cons, h8, hsave, List.filterMap_cons]
        cases hso : saveOf site u <;> simp [hso]
      · rw [List.foldl_cons, h9, hre]
        simp
        omega
      · rw [List.foldl_cons, h10, herr, List.countP_cons]
        by_cases h0 : (fetchO site u).status = 0 <;> simp [h0] <;> omega
      · rw [List.foldl_cons, h11, htot, List.filterMap_cons]
        cases hso : saveOf site u <;> simp [hso] <;> omega
      · intro c
        rw [List.foldl_cons, h12 c, hcls c, List.filterMap_cons]
        cases hso : saveOf site u <;> simp [hso, List.countP_cons] <;> omega

/-
C6. Redirect target dedup.
-/

/-- C6: within one `download_batch` call, a same-host redirect target
key is enqueued exactly once even when several batch URLs redirect to
it (provided it was unvisited); the key is in the visited set
afterwards, and every enqueued target key is in the visited set — the
visited-set add and the enqueue happen in the same step, so a later
wave cannot re-queue the target. -/
theorem c6_redirect_dedup (site : Site) (st : CrawlSt) (urls : List Str) (k : Str)
    (hk : k ∉ st.visited) (hex : ∃ u ∈ urls, redirectsTo site u k) :
    ((download_batch site st urls).targets.map url_to_path_key).countP
      (fun x => x = k) = 1 ∧
    k ∈ (download_batch site st urls).st.visited ∧
    (∀ t ∈ (download_batch site st urls).targets,
      url_to_path_key t ∈ (download_batch site st urls).st.visited) := by
  obtain ⟨tnew, h1, h2, h3, h4, h5, h6, h7, h8, h9, h10, h11, h12⟩ :=
    foldStep_spec site urls ⟨st, [], []⟩
  have htargets : (download_batch site st urls).targets = tnew := by
    rw [download_batch, h1]
    rfl
  have hvis : (download_batch site st urls).st.visited =
      st.visited ++ tnew.map url_to_path_key := h2
  have hkmem : k ∈ tnew.map url_to_path_key := h5 k hk hex
  refine ⟨?_, ?_, ?_⟩
  · rw [htargets]
    exact countP_eq_one_of_nodup_mem h3 hkmem
  · rw [hvis]
    exact List.mem_append_right _ hkmem
  · intro t ht
    rw [htargets] at ht
    rw [hvis]
    exact List.mem_append_right _ (List.mem_map_of_mem url_to_path_key ht)

/-- A concrete site in which two distinct URLs redirect to the same
same-host target, used to witness the redirect dedup claim. -/
def siteTwoRedirects : Site where
  pages :=
    [("https://x.com/a".data, ⟨301, "https://x.com/t".data, []⟩),
     ("https://x.com/b".data, ⟨302, "https://x.com/t".data, []⟩),
     ("https://x.com/t".data, ⟨200, [], "T".data⟩)]
  links := fun _ _ => []
  isExternalCanonical := fun _ => false
  siteUrl := "https://x.com".data

/-- C6 witnessed: two URLs of one batch redirect to the same target;
its key `t` is enqueued exactly once. -/
theorem c6_redirect_dedup_witness :
    ((download_batch siteTwoRedirects ⟨[], [], [], 0, Stats.empty⟩
        ["https://x.com/a".data, "https://x.com/b".data]).targets.map
          url_to_path_key).countP (fun x => x = "t".data) = 1 ∧
    ("t".data) ∈ (download_batch siteTwoRedirects ⟨[], [], [], 0, Stats.empty⟩
        ["https://x.com/a".data, "https://x.com/b".data]).st.visited ∧
    (∀ t ∈ (download_batch siteTwoRedirects ⟨[], [], [], 0, Stats.empty⟩
        ["https://x.com/a".data, "https://x.com/b".data]).targets,
      url_to_path_key t ∈ (download_batch siteTwoRedirects ⟨[], [], [], 0, Stats.empty⟩
        ["https://x.com/a".data, "https://x.com/b".data]).st.visited) :=
  c6_redirect_dedup siteTwoRedirects ⟨[], [], [], 0, Stats.empty⟩
    ["https://x.com/a".data, "https://x.com/b".data] ("t".data)
    (by decide)
    ⟨"https://x.com/a".data, by decide, by decide⟩

/-
C9. Statistics consistency across download_batch calls.
-/

/-- Any sequence of `download_batch` calls, as `main` performs them. -/
def runBatches (site : Site) (st : CrawlSt) (batches : List (List Str)) : CrawlSt :=
  batches.foldl (fun s urls => (download_batch site s urls).st) st

theorem sum_countP_classes {l : List (Str × Nat)} (h : ∀ e ∈ l, e.2 < 1000) :
    (∑ c ∈ Finset.range 10, l.countP (fun e => e.2 / 100 = c)) = l.length := by
  induction l with
  | nil => simp
  | cons e t ih =>
    have he : e.2 < 1000 := h e (List.mem_cons_self e t)
    have ht : ∀ x ∈ t, x.2 < 1000 := fun x hx => h x (List.mem_cons_of_mem e hx)
    have hcls : e.2 / 100 < 10 := by omega
    simp only [List.countP_cons, List.length_cons]
    rw [Finset.sum_add_distrib, ih ht]
    have hone : (∑ c ∈ Finset.range 10,
        if decide (e.2 / 100 = c) = true then 1 else 0) = 1 := by
      rw [Finset.sum_eq_single (e.2 / 100)]
      · simp
      · intro b _ hb
        simp [Ne.symm hb]
      · intro hcon
        exact absurd (Finset.mem_range.mpr hcls) hcon
    rw [hone]

/-- The statistics invariant `download_batch` maintains. -/
def StatsInv (site : Site) (st : CrawlSt) : Prop :=
  st.stats.total = st.saved.length ∧
  st.stats.errors = st.fetched.countP (fun u => (fetchO site u).status = 0) ∧
  (∀ c, st.stats.cls c = st.saved.countP (fun e => e.2 / 100 = c)) ∧
  (∀ e ∈ st.saved, e.2 ≠ 0 ∧ e.2 < 1000)

theorem download_batch_statsInv {site : Site} {st : CrawlSt}
    (hstat : ∀ p ∈ site.pages, p.2.status < 1000)
    (hinv : StatsInv site st) (urls : List Str) :
    StatsInv site (download_batch site st urls).st := by
  obtain ⟨tnew, h1, h2, h3, h4, h5, h6, h7, h8, h9, h10, h11, h12⟩ :=
    foldStep_spec site urls ⟨st, [], []⟩
  obtain ⟨i1, i2, i3, i4⟩ := hinv
  have hsaves : ∀ e ∈ urls.filterMap (saveOf site), e.2 ≠ 0 ∧ e.2 < 1000 := by
    intro e he
    obtain ⟨u, _, hu⟩ := List.mem_filterMap.mp he
    unfold saveOf at hu
    by_cases h0 : (fetchO site u).status = 0
    · simp [h0] at hu
    · simp only [h0, if_false, if_neg h0, Option.some.injEq] at hu
      obtain ⟨p, hp, hep⟩ := fetchO_mem h0
      refine ⟨?_, ?_⟩
      · rw [← hu]
        exact h0
      · rw [← hu]
        simp only
        rw [hep]
        exact hstat p hp
  have h7' : (download_batch site st urls).st.fetched = st.fetched ++ urls := h7
  have h8' : (download_batch site st urls).st.saved =
      st.saved ++ urls.filterMap (saveOf site) := h8
  have h10' : (download_batch site st urls).st.stats.errors = st.stats.errors +
      urls.countP (fun u => (fetchO site u).status = 0) := h10
  have h11' : (download_batch site st urls).st.stats.total = st.stats.total +
      (urls.filterMap (saveOf site)).length := h11
  have h12' : ∀ c, (download_batch site st urls).st.stats.cls c = st.stats.cls c +
      (urls.filterMap (saveOf site)).countP (fun e => e.2 / 100 = c) := h12
  refine ⟨?_, ?_, ?_, ?_⟩
  · rw [h8', h11', List.length_append, i1]
  · rw [h7', h10', List.countP_append, i2]
  · intro c
    rw [h8', h12' c, List.countP_append, i3 c]
  · rw [h8']
    intro e he
    rcases List.mem_append.mp he with hl | hr
    · exact i4 e hl
    · exact hsaves e hr

/-- C9: starting from an empty counter, after any sequence of
`download_batch` calls the total equals the sum of the per-status-class
counters, equals the number of pages saved to disk, transport errors
are counted exactly once per status-0 fetch, and no status-0 result
ever reaches a save. -/
theorem c9_stats_consistency (site : Site) (v0 : List Str) (batches : List (List Str))
    (hstat : ∀ p ∈ site.pages, p.2.status < 1000) :
    (runBatches site ⟨v0, [], [], 0, Stats.empty⟩ batches).stats.total =
      (∑ c ∈ Finset.range 10,
        (runBatches site ⟨v0, [], [], 0, Stats.empty⟩ batches).stats.cls c) ∧
    (runBatches site ⟨v0, [], [], 0, Stats.empty⟩ batches).stats.total =
      (runBatches site ⟨v0, [], [], 0, Stats.empty⟩ batches).saved.length ∧
    (runBatches site ⟨v0, [], [], 0, Stats.empty⟩ batches).stats.errors =
      (runBatches site ⟨v0, [], [], 0, Stats.empty⟩ batches).fetched.countP
        (fun u => (fetchO site u).status = 0) ∧
    (∀ e ∈ (runBatches site ⟨v0, [], [], 0, Stats.empty⟩ batches).saved, e.2 ≠ 0) := by
  have hrun : ∀ (bs : List (List Str)) (st : CrawlSt), StatsInv site st →
      StatsInv site (runBatches site st bs) := by
    intro bs
    induction bs with
    | nil => exact fun st h => h
    | cons b t ih =>
      intro st h
      simp only [runBatches, List.foldl_cons]
      exact ih _ (download_batch_statsInv hstat h b)
  have hinv : StatsInv site (runBatches site ⟨v0, [], [], 0, Stats.empty⟩ batches) :=
    hrun batches ⟨v0, [], [], 0, Stats.empty⟩
      ⟨rfl, rfl, fun c => rfl, fun e he => absurd he (List.not_mem_nil e)⟩
  obtain ⟨i1, i2, i3, i4⟩ := hinv
  refine ⟨?_, i1, i2, fun e he => (i4 e he).1⟩
  have hsum := @sum_countP_classes ((runBatches site ⟨v0, [], [], 0, Stats.empty⟩
    batches).saved) (fun e he => (i4 e he).2)
  rw [i1, ← hsum]
  exact Finset.sum_congr rfl (fun c _ => (i3 c).symm)

/-- C9 witnessed on a concrete two-redirect site and one batch. -/
theorem c9_stats_consistency_witness :
    (runBatches siteTwoRedirects ⟨[], [], [], 0, Stats.empty⟩
        [["https://x.com/a".data, "https://x.com/b".data]]).stats.total =
      (∑ c ∈ Finset.range 10,
        (runBatches siteTwoRedirects ⟨[], [], [], 0, Stats.empty⟩
          [["https://x.com/a".data, "https://x.com/b".data]]).stats.cls c) ∧
    (runBatches siteTwoRedirects ⟨[], [], [], 0, Stats.empty⟩
        [["https://x.com/a".data, "https://x.com/b".data]]).stats.total =
      (runBatches siteTwoRedirects ⟨[], [], [], 0, Stats.empty⟩
        [["https://x.com/a".data, "https://x.com/b".data]]).saved.length ∧
    (runBatches siteTwoRedirects ⟨[], [], [], 0, Stats.empty⟩
        [["https://x.com/a".data, "https://x.com/b".data]]).stats.errors =
      (runBatches siteTwoRedirects ⟨[], [], [], 0, Stats.empty⟩
        [["https://x.com/a".data, "https://x.com/b".data]]).fetched.countP
        (fun u => (fetchO siteTwoRedirects u).status = 0) ∧
    (∀ e ∈ (runBatches siteTwoRedirects ⟨[], [], [], 0, Stats.empty⟩
        [["https://x.com/a".data, "https://x.com/b".data]]).saved, e.2 ≠ 0) :=
  c9_stats_consistency siteTwoRedirects [] [["https://x.com/a".data, "https://x.com/b".data]]
    (by decide)

/-
C4. Sitemap redirect handling.
-/

theorem resolveRedirects_le (site : Site) : ∀ (fuel : Nat) (url : Str),
    (resolveRedirects site fuel url).2 ≤ fuel := by
  intro fuel
  induction fuel with
  | zero => intro url; simp [resolveRedirects]
  | succ n ih =>
    intro url
    simp only [resolveRedirects]
    split_ifs with h
    · match n, ih with
      | 0, _ => simp
      | m + 1, ih =>
        have := ih (fetchO site url).redirectUrl
        simp only []
        omega
    · simp

/-- A sitemap URL that answers 301 to itself forever: the redirect
chase exhausts its five attempts and still holds a 3xx response. -/
def siteSelfRedirect : Site where
  pages := [("https://x.com/sitemap.xml".data,
    ⟨301, "https://x.com/sitemap.xml".data, "SM".data⟩)]
  links := fun _ _ => []
  isExternalCanonical := fun _ => false
  siteUrl := "https://x.com".data

/-- A sitemap parser stub that finds one page URL in any body. -/
def parseOnePage : Str → List Str × List Str :=
  fun _ => (["https://x.com/p".data], [])

/-- C4 counterexample: after the five-fetch redirect bound is exhausted
the sitemap still answers 301, yet `fetch_sitemap_urls` does NOT skip
it — the 3xx response body is saved as the sitemap file and parsed for
URLs (the skip test is only `status == 0 or status >= 400`), so the
claim that it is treated as a failure (not saved, not parsed) is
false. -/
theorem c4_counterexample :
    (resolveRedirects siteSelfRedirect 5 ("https://x.com/sitemap.xml".data)).2 = 5 ∧
    (resolveRedirects siteSelfRedirect 5 ("https://x.com/sitemap.xml".data)).1.status = 301 ∧
    (fetch_sitemap_urls siteSelfRedirect parseOnePage
      ("https://x.com/sitemap.xml".data) 3).1.rawSaved =
        [("sitemap.xml".data, "SM".data)] ∧
    (fetch_sitemap_urls siteSelfRedirect parseOnePage
      ("https://x.com/sitemap.xml".data) 3).1.pageUrls = ["https://x.com/p".data] ∧
    (fetch_sitemap_urls siteSelfRedirect parseOnePage
      ("https://x.com/sitemap.xml".data) 3).1.skipped = [] ∧
    (fetch_sitemap_urls siteSelfRedirect parseOnePage
      ("https://x.com/sitemap.xml".data) 3).2 = true := by decide

/-- C4 amended: redirects are chased for at most five fetch attempts
per sitemap; a sitemap whose final answer is a transport error or a
4xx/5xx is skipped with a warning and the loop continues with the
remaining queue; any other final answer — including a 3xx that
survived the hop bound — is saved and parsed like a success. -/
theorem c4_sitemap_redirects (site : Site) (parse : Str → List Str × List Str)
    (st : SitemapSt) (cur : Str) (rest : List Str) (fuel : Nat) :
    (resolveRedirects site 5 cur).2 ≤ 5 ∧
    (((resolveRedirects site 5 cur).1.status = 0 ∨
        400 ≤ (resolveRedirects site 5 cur).1.status) →
      sitemapStep site parse st cur = { st with skipped := st.skipped ++ [cur] }) ∧
    (¬((resolveRedirects site 5 cur).1.status = 0 ∨
        400 ≤ (resolveRedirects site 5 cur).1.status) →
      sitemapStep site parse st cur =
        { st with
          rawSaved := st.rawSaved ++
            [(if ((cur.splitOn '/').getLastD []) ≠ [] then (cur.splitOn '/').getLastD []
              else "sitemap.xml".data,
              (resolveRedirects site 5 cur).1.body)],
          pageUrls := st.pageUrls ++ (parse (resolveRedirects site 5 cur).1.body).1,
          queue := st.queue ++ (parse (resolveRedirects site 5 cur).1.body).2 }) ∧
    (st.queue = cur :: rest → cur ∉ st.fetchedSitemaps →
      sitemapLoop site parse (fuel + 1) st =
        sitemapLoop site parse fuel
          (sitemapStep site parse
            { st with queue := rest, fetchedSitemaps := st.fetchedSitemaps ++ [cur] } cur)) := by
  refine ⟨resolveRedirects_le site 5 cur, ?_, ?_, ?_⟩
  · intro hbad
    unfold sitemapStep
    rw [if_pos hbad]
  · intro hgood
    unfold sitemapStep
    rw [if_neg hgood]
  · intro hq hseen
    conv_lhs => rw [sitemapLoop]
    simp only [hq]
    rw [if_neg hseen]

/-- C4 amended, witnessed on the self-redirecting sitemap: the final
3xx answer is saved as `sitemap.xml` and parsed. -/
theorem c4_sitemap_redirects_witness :
    sitemapStep siteSelfRedirect parseOnePage ⟨[], [], [], [], []⟩
      ("https://x.com/sitemap.xml".data) =
    ⟨["https://x.com/p".data], [], [], [("sitemap.xml".data, "SM".data)], []⟩ :=
  (c4_sitemap_redirects siteSelfRedirect parseOnePage ⟨[], [], [], [], []⟩
    ("https://x.com/sitemap.xml".data) [] 0).2.2.1 (by decide)

/-
Selection folds: sitemap seed selection and link-wave collection both
claim keys and queue URLs in lockstep.
-/

/-- One link list folded with the claim-and-queue step: the claimed
keys and the queued URLs extend in lockstep, with fresh distinct
keys. -/
theorem claimFold_spec (links : List Str) :
    ∀ (acc : List Str × List Str),
    ∃ nnew,
      (links.foldl (fun acc2 link =>
        let k := url_to_path_key link
        if k ∈ acc2.1 then acc2 else (acc2.1 ++ [k], acc2.2 ++ [link])) acc).1 =
          acc.1 ++ nnew.map url_to_path_key ∧
      (links.foldl (fun acc2 link =>
        let k := url_to_path_key link
        if k ∈ acc2.1 then acc2 else (acc2.1 ++ [k], acc2.2 ++ [link])) acc).2 =
          acc.2 ++ nnew ∧
      (nnew.map url_to_path_key).Nodup ∧
      (∀ k ∈ nnew.map url_to_path_key, k ∉ acc.1) := by
  induction links with
  | nil =>
    intro acc
    exact ⟨[], by simp, by simp, List.nodup_nil, fun k hk => absurd hk (List.not_mem_nil k)⟩
  | cons l t ih =>
    intro acc
    rw [List.foldl_cons]
    by_cases hmem : url_to_path_key l ∈ acc.1
    · obtain ⟨nnew, e1, e2, e3, e4⟩ := ih acc
      simp only [hmem, if_true] at e1 e2 ⊢
      exact ⟨nnew, e1, e2, e3, e4⟩
    · obtain ⟨nnew, e1, e2, e3, e4⟩ := ih (acc.1 ++ [url_to_path_key l], acc.2 ++ [l])
      simp only [hmem, if_false] at e1 e2 ⊢
      refine ⟨l :: nnew, ?_, ?_, ?_, ?_⟩
      · rw [e1]
        simp
      · rw [e2]
        simp
      · refine List.nodup_cons.mpr ⟨?_, e3⟩
        intro hcon
        exact (e4 _ hcon) (List.mem_append_right _ (List.mem_singleton.mpr rfl))
      · intro k hk
        rcases List.mem_cons.mp hk with he | hm
        · rw [he]
          exact hmem
        · intro hcon
          exact (e4 k hm) (List.mem_append_left _ hcon)

/-- `collectNewUrls` claims exactly the keys of the URLs it queues,
all fresh and pairwise distinct. -/
theorem collectNewUrls_spec (site : Site) (bodies : List (Str × Str)) :
    ∀ (v : List Str),
      (collectNewUrls site v bodies).1 =
        v ++ (collectNewUrls site v bodies).2.map url_to_path_key ∧
      ((collectNewUrls site v bodies).2.map url_to_path_key).Nodup ∧
      (∀ k ∈ (collectNewUrls site v bodies).2.map url_to_path_key, k ∉ v) := by
  suffices h : ∀ (acc : List Str × List Str),
      ∃ nnew,
        (bodies.foldl (fun acc2 pb =>
          (site.links pb.2 pb.1).foldl (fun acc3 link =>
            let k := url_to_path_key link
            if k ∈ acc3.1 then acc3 else (acc3.1 ++ [k], acc3.2 ++ [link])) acc2) acc).1 =
            acc.1 ++ nnew.map url_to_path_key ∧
        (bodies.foldl (fun acc2 pb =>
          (site.links pb.2 pb.1).foldl (fun acc3 link =>
            let k := url_to_path_key link
            if k ∈ acc3.1 then acc3 else (acc3.1 ++ [k], acc3.2 ++ [link])) acc2) acc).2 =
            acc.2 ++ nnew ∧
        (nnew.map url_to_path_key).Nodup ∧
        (∀ k ∈ nnew.map url_to_path_key, k ∉ acc.1) by
    intro v
    obtain ⟨nnew, e1, e2, e3, e4⟩ := h (v, [])
    have hfst : (collectNewUrls site v bodies).1 = v ++ nnew.map url_to_path_key := e1
    have hsnd : (collectNewUrls site v bodies).2 = nnew := e2
    refine ⟨?_, ?_, ?_⟩
    · rw [hfst, hsnd]
    · rw [hsnd]
      exact e3
    · rw [hsnd]
      exact e4
  induction bodies with
  | nil =>
    intro acc
    exact ⟨[], by simp, by simp, List.nodup_nil, fun k hk => absurd hk (List.not_mem_nil k)⟩
  | cons pb t ih =>
    intro acc
    rw [List.foldl_cons]
    obtain ⟨n1, a1, a2, a3, a4⟩ := claimFold_spec (site.links pb.2 pb.1) acc
    obtain ⟨n2, b1, b2, b3, b4⟩ := ih ((site.links pb.2 pb.1).foldl (fun acc3 link =>
      let k := url_to_path_key link
      if k ∈ acc3.1 then acc3 else (acc3.1 ++ [k], acc3.2 ++ [link])) acc)
    refine ⟨n1 ++ n2, ?_, ?_, ?_, ?_⟩
    · rw [b1, a1]
      simp
    · rw [b2, a2]
      simp
    · rw [List.map_append]
      refine List.Nodup.append a3 b3 ?_
      intro k hk1 hk2
      have := b4 k hk2
      rw [a1] at this
      exact this (List.mem_append_right _ hk1)
    · intro k hk
      rw [List.map_append] at hk
      rcases List.mem_append.mp hk with hl | hr
      · exact a4 k hl
      · have := b4 k hr
        rw [a1] at this
        intro hcon
        exact this (List.mem_append_left _ hcon)

/-- `selectSeeds` spec: lockstep claim of fresh distinct keys, bounded
by the budget. -/
theorem selectSeeds_spec (maxTotal : Nat) (urls : List Str) :
    ∀ (v : List Str),
      (selectSeeds maxTotal v urls).1 =
        v ++ (selectSeeds maxTotal v urls).2.map url_to_path_key ∧
      ((selectSeeds maxTotal v urls).2.map url_to_path_key).Nodup ∧
      (∀ k ∈ (selectSeeds maxTotal v urls).2.map url_to_path_key, k ∉ v) ∧
      (selectSeeds maxTotal v urls).1.length ≤ max v.length maxTotal := by
  suffices h : ∀ (acc : List Str × List Str),
      ∃ nnew,
        (urls.foldl (fun acc url =>
          let k := url_to_path_key url
          if k ∉ acc.1 ∧ acc.1.length < maxTotal then (acc.1 ++ [k], acc.2 ++ [url])
          else acc) acc).1 = acc.1 ++ nnew.map url_to_path_key ∧
        (urls.foldl (fun acc url =>
          let k := url_to_path_key url
          if k ∉ acc.1 ∧ acc.1.length < maxTotal then (acc.1 ++ [k], acc.2 ++ [url])
          else acc) acc).2 = acc.2 ++ nnew ∧
        (nnew.map url_to_path_key).Nodup ∧
        (∀ k ∈ nnew.map url_to_path_key, k ∉ acc.1) ∧
        (urls.foldl (fun acc url =>
          let k := url_to_path_key url
          if k ∉ acc.1 ∧ acc.1.length < maxTotal then (acc.1 ++ [k], acc.2 ++ [url])
          else acc) acc).1.length ≤ max acc.1.length maxTotal by
    intro v
    obtain ⟨nnew, e1, e2, e3, e4, e5⟩ := h (v, [])
    have hfst : (selectSeeds maxTotal v urls).1 = v ++ nnew.map url_to_path_key := e1
    have hsnd : (selectSeeds maxTotal v urls).2 = nnew := e2
    have hlen : (selectSeeds maxTotal v urls).1.length ≤ max v.length maxTotal := e5
    refine ⟨?_, ?_, ?_, hlen⟩
    · rw [hfst, hsnd]
    · rw [hsnd]
      exact e3
    · rw [hsnd]
      exact e4
  induction urls with
  | nil =>
    intro acc
    refine ⟨[], by simp, by simp, List.nodup_nil,
      fun k hk => absurd hk (List.not_mem_nil k), by simp⟩
  | cons u t ih =>
    intro acc
    by_cases hc : url_to_path_key u ∉ acc.1 ∧ acc.1.length < maxTotal
    · have hfold : List.foldl (fun (acc : List Str × List Str) url =>
          let k := url_to_path_key url
          if k ∉ acc.1 ∧ acc.1.length < maxTotal then (acc.1 ++ [k], acc.2 ++ [url])
          else acc) acc (u :: t) =
        List.foldl (fun (acc : List Str × List Str) url =>
          let k := url_to_path_key url
          if k ∉ acc.1 ∧ acc.1.length < maxTotal then (acc.1 ++ [k], acc.2 ++ [url])
          else acc) (acc.1 ++ [url_to_path_key u], acc.2 ++ [u]) t := by
        rw [List.foldl_cons]
        congr 1
        show (if url_to_path_key u ∉ acc.1 ∧ acc.1.length < maxTotal
          then (acc.1 ++ [url_to_path_key u], acc.2 ++ [u]) else acc) =
          (acc.1 ++ [url_to_path_key u], acc.2 ++ [u])
        rw [if_pos hc]
      rw [hfold]
      obtain ⟨nnew, e1, e2, e3, e4, e5⟩ := ih (acc.1 ++ [url_to_path_key u], acc.2 ++ [u])
      refine ⟨u :: nnew, ?_, ?_, ?_, ?_, ?_⟩
      · rw [e1]
        simp
      · rw [e2]
        simp
      · refine List.nodup_cons.mpr ⟨?_, e3⟩
        intro hcon
        exact (e4 _ hcon) (List.mem_append_right _ (List.mem_singleton.mpr rfl))
      · intro k hk
        rcases List.mem_cons.mp hk with he | hm
        · rw [he]
          exact hc.1
        · intro hcon
          exact (e4 k hm) (List.mem_append_left _ hcon)
      · refine le_trans e5 ?_
        rw [List.length_append]
        simp only [List.length_singleton]
        have h1 : acc.1.length + 1 ≤ maxTotal := hc.2
        rw [max_eq_right h1, max_eq_right (Nat.le_of_lt hc.2)]
    · have hfold : List.foldl (fun (acc : List Str × List Str) url =>
          let k := url_to_path_key url
          if k ∉ acc.1 ∧ acc.1.length < maxTotal then (acc.1 ++ [k], acc.2 ++ [url])
          else acc) acc (u :: t) =
        List.foldl (fun (acc : List Str × List Str) url =>
          let k := url_to_path_key url
          if k ∉ acc.1 ∧ acc.1.length < maxTotal then (acc.1 ++ [k], acc.2 ++ [url])
          else acc) acc t := by
        rw [List.foldl_cons]
        congr 1
        show (if url_to_path_key u ∉ acc.1 ∧ acc.1.length < maxTotal
          then (acc.1 ++ [url_to_path_key u], acc.2 ++ [u]) else acc) = acc
        rw [if_neg hc]
      rw [hfold]
      exact ih acc

/-
The crawl-level invariant: C1 (budget) and C2 (resume) both follow
from it.  `E` is the key set loaded from disk, `M` is MAX_PAGES, and
`pend` the URLs selected (claimed in the visited set) but not yet
fetched.
-/

structure Inv (E : List Str) (M : Nat) (st : CrawlSt) (pend : List Str) : Prop where
  hE : ∃ vext, st.visited = E ++ vext
  hfetched : ∀ u ∈ st.fetched, url_to_path_key u ∉ E
  hpendE : ∀ u ∈ pend, url_to_path_key u ∉ E
  hpendV : ∀ u ∈ pend, url_to_path_key u ∈ st.visited
  hpendNd : (pend.map url_to_path_key).Nodup
  hpendS : ∀ u ∈ pend, url_to_path_key u ∉ st.saved.map Prod.fst
  hsavedNd : (st.saved.map Prod.fst).Nodup
  hsavedV : ∀ k ∈ st.saved.map Prod.fst, k ∈ st.visited
  hbound : st.saved.length + pend.length + ((M + E.length) - st.visited.length) ≤
    M + st.redirectEnqueues

theorem Inv.weaken {E M st pend} (h : Inv E M st pend) : Inv E M st [] := by
  refine ⟨h.hE, h.hfetched, ?_, ?_, List.nodup_nil, ?_, h.hsavedNd, h.hsavedV, ?_⟩
  · intro u hu
    exact absurd hu (List.not_mem_nil u)
  · intro u hu
    exact absurd hu (List.not_mem_nil u)
  · intro u hu
    exact absurd hu (List.not_mem_nil u)
  · have := h.hbound
    simp only [List.length_nil]
    omega

theorem filterMap_saveOf_keys_sublist (site : Site) (urls : List Str) :
    ((urls.filterMap (saveOf site)).map Prod.fst).Sublist (urls.map url_to_path_key) := by
  induction urls with
  | nil => simp
  | cons u t ih =>
    rw [List.filterMap_cons]
    cases hso : saveOf site u with
    | none =>
      rw [List.map_cons]
      exact ih.cons _
    | some e =>
      have hso' : (if (fetchO site u).status = 0 then none
          else some (url_to_path_key u, (fetchO site u).status)) = some e := hso
      have he : e.1 = url_to_path_key u := by
        split_ifs at hso' with h0
        simp only [Option.some.injEq] at hso'
        rw [← hso']
      rw [List.map_cons, List.map_cons, he]
      exact ih.cons₂ _

theorem Inv.batch {site : Site} {E : List Str} {M : Nat} {st : CrawlSt} {pend : List Str}
    (h : Inv E M st pend) :
    Inv E M (download_batch site st pend).st (download_batch site st pend).targets := by
  obtain ⟨tnew, h1, h2, h3, h4, h5, h6, h7, h8, h9, h10, h11, h12⟩ :=
    foldStep_spec site pend ⟨st, [], []⟩
  have htar : (download_batch site st pend).targets = tnew := h1
  have hvis : (download_batch site st pend).st.visited =
      st.visited ++ tnew.map url_to_path_key := h2
  have hfet : (download_batch site st pend).st.fetched = st.fetched ++ pend := h7
  have hsav : (download_batch site st pend).st.saved =
      st.saved ++ pend.filterMap (saveOf site) := h8
  have hre : (download_batch site st pend).st.redirectEnqueues =
      st.redirectEnqueues + tnew.length := h9
  have h4' : ∀ k ∈ tnew.map url_to_path_key, k ∉ st.visited := h4
  have hEsub : ∀ k, k ∈ E → k ∈ st.visited := by
    obtain ⟨vext, hv⟩ := h.hE
    intro k hk
    rw [hv]
    exact List.mem_append_left _ hk
  have hsubl := filterMap_saveOf_keys_sublist site pend
  have hnewSavedKeys : ∀ k ∈ (pend.filterMap (saveOf site)).map Prod.fst,
      k ∈ pend.map url_to_path_key := fun k hk => hsubl.mem hk
  refine ⟨?_, ?_, ?_, ?_, ?_, ?_, ?_, ?_, ?_⟩
  · obtain ⟨vext, hv⟩ := h.hE
    exact ⟨vext ++ tnew.map url_to_path_key, by rw [hvis, hv, List.append_assoc]⟩
  · intro u hu
    rw [hfet] at hu
    rcases List.mem_append.mp hu with hl | hr
    · exact h.hfetched u hl
    · exact h.hpendE u hr
  · intro u hu
    rw [htar] at hu
    intro hcon
    exact h4' _ (List.mem_map_of_mem url_to_path_key hu) (hEsub _ hcon)
  · intro u hu
    rw [htar] at hu
    rw [hvis]
    exact List.mem_append_right _ (List.mem_map_of_mem url_to_path_key hu)
  · rw [htar]
    exact h3
  · intro u hu
    rw [htar] at hu
    rw [hsav]
    intro hcon
    rw [List.map_append] at hcon
    rcases List.mem_append.mp hcon with hl | hr
    · exact h4' _ (List.mem_map_of_mem url_to_path_key hu) (h.hsavedV _ hl)
    · obtain ⟨w, hw, hwk⟩ := List.mem_map.mp (hnewSavedKeys _ hr)
      exact h4' _ (List.mem_map_of_mem url_to_path_key hu) (hwk ▸ h.hpendV w hw)
  · rw [hsav, List.map_append]
    refine List.Nodup.append h.hsavedNd (hsubl.nodup h.hpendNd) ?_
    intro k hk1 hk2
    obtain ⟨w, hw, hwk⟩ := List.mem_map.mp (hnewSavedKeys _ hk2)
    exact h.hpendS w hw (hwk ▸ hk1)
  · intro k hk
    rw [hsav, List.map_append] at hk
    rw [hvis]
    rcases List.mem_append.mp hk with hl | hr
    · exact List.mem_append_left _ (h.hsavedV k hl)
    · obtain ⟨w, hw, hwk⟩ := List.mem_map.mp (hnewSavedKeys _ hr)
      exact List.mem_append_left _ (hwk ▸ h.hpendV w hw)
  · have e1 : (download_batch site st pend).st.saved.length =
        st.saved.length + (pend.filterMap (saveOf site)).length := by
      rw [hsav, List.length_append]
    have e2 : (pend.filterMap (saveOf site)).length ≤ pend.length :=
      List.length_filterMap_le _ _
    have e3 : (download_batch site st pend).st.visited.length =
        st.visited.length + tnew.length := by
      rw [hvis, List.length_append, List.length_map]
    have e4 : (download_batch site st pend).targets.length = tnew.length := by
      rw [htar]
    have e5 := h.hbound
    rw [e1, e3, e4, hre]
    omega

theorem Inv.redirLoop {site : Site} {E : List Str} {M : Nat} :
    ∀ (fuel : Nat) (st : CrawlSt) (targets : List Str) (bodies : List (Str × Str)),
    Inv E M st targets →
    Inv E M (redirectLoop site fuel st targets bodies).1 [] := by
  intro fuel
  induction fuel with
  | zero =>
    intro st targets bodies h
    exact h.weaken
  | succ f ih =>
    intro st targets bodies h
    rw [redirectLoop]
    by_cases ht : targets.isEmpty
    · rw [if_pos ht]
      exact h.weaken
    · rw [if_neg ht]
      exact ih _ _ _ h.batch

/-- The invariant after link collection and budget truncation of one
frontier iteration. -/
theorem Inv.collect {site : Site} {E : List Str} {M : Nat} {st : CrawlSt}
    {bodies : List (Str × Str)} (h : Inv E M st [])
    (hpr : ¬((M + E.length) - st.visited.length = 0)) :
    Inv E M { st with visited := (collectNewUrls site st.visited bodies).1 }
      (if (collectNewUrls site st.visited bodies).2.length >
          (M + E.length) - st.visited.length
        then (collectNewUrls site st.visited bodies).2.take
          ((M + E.length) - st.visited.length)
        else (collectNewUrls site st.visited bodies).2) := by
  obtain ⟨hc1, hc2, hc3⟩ := collectNewUrls_spec site bodies st.visited
  have hmemc : ∀ u, (u ∈ (if (collectNewUrls site st.visited bodies).2.length >
      (M + E.length) - st.visited.length
      then (collectNewUrls site st.visited bodies).2.take
        ((M + E.length) - st.visited.length)
      else (collectNewUrls site st.visited bodies).2)) →
      u ∈ (collectNewUrls site st.visited bodies).2 := by
    intro u hu
    split_ifs at hu with hlen
    · exact List.mem_of_mem_take hu
    · exact hu
  have hkey : ∀ u ∈ (collectNewUrls site st.visited bodies).2,
      url_to_path_key u ∉ st.visited := by
    intro u hu
    exact hc3 _ (List.mem_map_of_mem url_to_path_key hu)
  have hEsub : ∀ k ∈ E, k ∈ st.visited := by
    obtain ⟨vext, hv⟩ := h.hE
    intro k hk
    rw [hv]
    exact List.mem_append_left _ hk
  refine ⟨?_, h.hfetched, ?_, ?_, ?_, ?_, h.hsavedNd, ?_, ?_⟩
  · obtain ⟨vext, hv⟩ := h.hE
    exact ⟨vext ++ (collectNewUrls site st.visited bodies).2.map url_to_path_key,
      by simp only; rw [hc1, hv, List.append_assoc]⟩
  · intro u hu
    intro hcon
    exact hkey u (hmemc u hu) (hEsub _ hcon)
  · intro u hu
    simp only
    rw [hc1]
    exact List.mem_append_right _
      (List.mem_map_of_mem url_to_path_key (hmemc u hu))
  · split_ifs with hlen
    · exact ((List.take_sublist _ _).map _).nodup hc2
    · exact hc2
  · intro u hu
    intro hcon
    exact hkey u (hmemc u hu) (h.hsavedV _ hcon)
  · intro k hk
    simp only
    rw [hc1]
    exact List.mem_append_left _ (h.hsavedV k hk)
  · have hlen1 : (collectNewUrls site st.visited bodies).1.length =
        st.visited.length + (collectNewUrls site st.visited bodies).2.length := by
      rw [hc1, List.length_append, List.length_map]
    have hb := h.hbound
    simp only [List.length_nil] at hb
    simp only [hlen1]
    split_ifs with hlen
    · rw [List.length_take]
      omega
    · omega

theorem Inv.frontier {site : Site} {E : List Str} {M innerFuel : Nat} :
    ∀ (fuel : Nat) (st : CrawlSt) (bodies : List (Str × Str)),
    Inv E M st [] →
    Inv E M (frontierLoop site (M + E.length) innerFuel fuel st bodies).1 [] := by
  intro fuel
  induction fuel with
  | zero =>
    intro st bodies h
    exact h
  | succ f ih =>
    intro st bodies h
    simp only [frontierLoop]
    set C := collectNewUrls site st.visited bodies with hC
    set NU := (if C.2.length > (M + E.length) - st.visited.length
      then C.2.take ((M + E.length) - st.visited.length) else C.2) with hNU
    by_cases hpr : (M + E.length) - st.visited.length = 0
    · rw [if_pos hpr]
      exact h
    · rw [if_neg hpr]
      have hinv2 : Inv E M { st with visited := C.1 } NU := by
        rw [hC, hNU]
        exact @Inv.collect site _ _ _ bodies h hpr
      set A := download_batch site { st with visited := C.1 } NU with hA
      set R := redirectLoop site innerFuel A.st A.targets
        (A.downloaded.map (fun d => (d.1, d.2.2))) with hR
      have hb : Inv E M A.st A.targets := by
        rw [hA]
        exact @Inv.batch site _ _ _ _ hinv2
      have hr : Inv E M R.1 [] := by
        rw [hR]
        exact @Inv.redirLoop site _ _ innerFuel _ _ _ hb
      by_cases hempty : NU.isEmpty
      · rw [if_pos hempty]
        exact hinv2.weaken
      · rw [if_neg hempty]
        by_cases hok : R.2.2
        · rw [if_pos hok]
          exact ih _ _ hr
        · rw [if_neg hok]
          exact hr

/-- The crawl invariant holds at the end of every crawl. -/
theorem crawl_inv (site : Site) (sitemapUrls existingKeys : List Str)
    (maxPages innerFuel outerFuel : Nat) :
    Inv existingKeys maxPages
      (crawl site sitemapUrls existingKeys maxPages innerFuel outerFuel).1 [] := by
  simp only [crawl]
  set sel := selectSeeds (maxPages + existingKeys.length) existingKeys sitemapUrls with hsel
  obtain ⟨e1, e2, e3, e4⟩ :=
    selectSeeds_spec (maxPages + existingKeys.length) sitemapUrls existingKeys
  have hlen1 : sel.1.length = existingKeys.length + sel.2.length := by
    rw [hsel, e1, List.length_append, List.length_map]
  have hlen2 : sel.1.length ≤ maxPages + existingKeys.length := by
    rw [hsel]
    refine le_trans e4 ?_
    rw [max_eq_right]
    omega
  have hinv0 : Inv existingKeys maxPages
      (⟨sel.1, [], [], 0, Stats.empty⟩ : CrawlSt) sel.2 := by
    refine ⟨⟨sel.2.map url_to_path_key, e1⟩, ?_, ?_, ?_, e2, ?_, List.nodup_nil, ?_, ?_⟩
    · intro u hu
      exact absurd hu (List.not_mem_nil u)
    · intro u hu
      exact e3 _ (List.mem_map_of_mem url_to_path_key hu)
    · intro u hu
      simp only
      rw [e1]
      exact List.mem_append_right _ (List.mem_map_of_mem url_to_path_key hu)
    · intro u _
      simp
    · intro k hk
      exact absurd hk (List.not_mem_nil k)
    · simp only [List.length_nil]
      omega
  by_cases hempty : sel.2.isEmpty
  · rw [if_pos hempty]
    exact @Inv.frontier site _ _ _ outerFuel _ [] hinv0.weaken
  · rw [if_neg hempty]
    have hb := @Inv.batch site _ _ _ _ hinv0
    have hr := @Inv.redirLoop site _ _ innerFuel _ _
      ((download_batch site ⟨sel.1, [], [], 0, Stats.empty⟩ sel.2).downloaded.map
        (fun d => (d.1, d.2.2))) hb
    exact @Inv.frontier site _ _ _ outerFuel _ _ hr

/-
C1. Budget enforcement.
-/

/-- A site whose single sitemap page 301-redirects to a second page:
with budget 1 the crawl fetches and saves two distinct path-keys. -/
def siteRedirectPair : Site where
  pages :=
    [("https://x.com/a".data, ⟨301, "https://x.com/b".data, []⟩),
     ("https://x.com/b".data, ⟨200, [], "B".data⟩)]
  links := fun _ _ => []
  isExternalCanonical := fun _ => false
  siteUrl := "https://x.com".data

/-- C1 counterexample: with `maxPages = 1` and no prior pages, the
crawl of `siteRedirectPair` terminates having fetched and persisted
two distinct path-keys — the internal-redirect target queued by
`download_batch` is fetched without any budget check, exceeding the
bound. -/
theorem c1_counterexample :
    (crawl siteRedirectPair ["https://x.com/a".data] [] 1 5 3).2 = true ∧
    ((crawl siteRedirectPair ["https://x.com/a".data] [] 1 5 3).1.saved.map
      Prod.fst).dedup.length = 2 ∧
    ¬(((crawl siteRedirectPair ["https://x.com/a".data] [] 1 5 3).1.saved.map
      Prod.fst).dedup.length ≤ 1) := by decide

/-- C1 amended: the path-keys persisted by a crawl are pairwise
distinct, and their number is at most `maxPages` plus the number of
internal-redirect targets enqueued by `download_batch` — seed and
link-wave fetches respect the budget, and redirect-target fetches
consume budget for later selections but are themselves exempt from
the check. -/
theorem c1_budget (site : Site) (sitemapUrls existingKeys : List Str)
    (maxPages innerFuel outerFuel : Nat) :
    ((crawl site sitemapUrls existingKeys maxPages innerFuel outerFuel).1.saved.map
      Prod.fst).Nodup ∧
    (crawl site sitemapUrls existingKeys maxPages innerFuel outerFuel).1.saved.length ≤
      maxPages +
        (crawl site sitemapUrls existingKeys maxPages innerFuel outerFuel).1.redirectEnqueues := by
  have h := crawl_inv site sitemapUrls existingKeys maxPages innerFuel outerFuel
  refine ⟨h.hsavedNd, ?_⟩
  have := h.hbound
  simp only [List.length_nil] at this
  omega

/-
C2. Idempotent resume.
-/

theorem intercalate_cons_of_ne_nil {c : Char} {d : Str} {L : List Str} (h : L ≠ []) :
    List.intercalate (c :: []) (d :: L) = d ++ c :: List.intercalate (c :: []) L := by
  cases L with
  | nil => exact absurd rfl h
  | cons b t =>
    simp [List.intercalate]

theorem intercalate_append_singleton {c : Char} {dirs : List Str} {slug : Str}
    (h : dirs ≠ []) :
    List.intercalate (c :: []) (dirs ++ [slug]) =
      List.intercalate (c :: []) dirs ++ c :: slug := by
  induction dirs with
  | nil => exact absurd rfl h
  | cons d t ih =>
    by_cases ht : t = []
    · subst ht
      simp [List.intercalate]
    · have h1 : t ++ [slug] ≠ [] := by simp
      rw [List.cons_append, intercalate_cons_of_ne_nil h1, intercalate_cons_of_ne_nil ht,
        ih ht, List.append_assoc]
      simp

theorem html_isSuffixOf_pageFileName (s : Nat) (slug : Str) :
    (('.' :: 'h' :: 't' :: 'm' :: 'l' :: []) : Str).isSuffixOf (pageFileName s slug) = true := by
  rw [List.isSuffixOf_iff_suffix]
  exact ⟨natToStr s ++ '-' :: slug, by simp [pageFileName]⟩

/-- Decoding a stored page file: the resume key recovered from
`<dirs>/<status>-<slug>.html` is the directory components joined with
the slug. -/
theorem pageKeyOfFile_concat (dirs : List Str) (s : Nat) (slug : Str) :
    pageKeyOfFile (dirs ++ [pageFileName s slug]) =
      some (if dirs ≠ [] then (List.intercalate ('/' :: []) dirs) ++ '/' :: slug
            else slug) := by
  have hname : (dirs ++ [pageFileName s slug]).getLastD [] = pageFileName s slug := by
    rw [List.getLastD_eq_getLast?, List.getLast?_concat]
    rfl
  have hdrop : (dirs ++ [pageFileName s slug]).dropLast = dirs := List.dropLast_concat
  simp only [pageKeyOfFile]
  rw [hname, hdrop, html_isSuffixOf_pageFileName, stemOf_pageFileName, splitFirst_pageStem]
  simp [isDigits_natToStr]

/-- Round trip of the on-disk codec: for a URL whose path has no empty
and no single-dot segments, the key `load_existing_pages` derives from
the stored file is exactly the URL path-key. -/
theorem pageKey_roundtrip (url : Str) (status : Nat)
    (hseg : ∀ d ∈ (stripChar '/' (urlparseModel url).path).splitOn '/',
      d ≠ [] ∧ d ≠ ('.' :: [])) :
    pageKeyOfFile (get_page_path url status) = some (url_to_path_key url) := by
  by_cases hpath : stripChar '/' (urlparseModel url).path = []
  · have hds1 : (urlDirsSlug url).1 = [] := by
      simp only [urlDirsSlug]
      rw [if_pos hpath]
    have hds2 : (urlDirsSlug url).2 = ('i' :: 'n' :: 'd' :: 'e' :: 'x' :: []) := by
      simp only [urlDirsSlug]
      rw [if_pos hpath]
    have hp : get_page_path url status =
        [] ++ [pageFileName status ('i' :: 'n' :: 'd' :: 'e' :: 'x' :: [])] := by
      unfold get_page_path
      rw [hds1, hds2]
      rfl
    have hkey : url_to_path_key url = ('i' :: 'n' :: 'd' :: 'e' :: 'x' :: []) := by
      simp only [url_to_path_key]
      rw [if_pos hpath]
    rw [hp, pageKeyOfFile_concat, hkey]
    simp
  · have hpne : (stripChar '/' (urlparseModel url).path).splitOn '/' ≠ [] := by
      rw [List.splitOn]
      exact List.splitOnP_ne_nil _ _
    have hlastmem : ((stripChar '/' (urlparseModel url).path).splitOn '/').getLastD [] ∈
        (stripChar '/' (urlparseModel url).path).splitOn '/' := by
      rw [List.getLastD_eq_getLast?, List.getLast?_eq_getLast _ hpne]
      simp only [Option.getD_some]
      exact List.getLast_mem hpne
    have hlast : ((stripChar '/' (urlparseModel url).path).splitOn '/').getLastD [] ≠ [] :=
      (hseg _ hlastmem).1
    have hds1 : (urlDirsSlug url).1 =
        ((stripChar '/' (urlparseModel url).path).splitOn '/').dropLast := by
      simp only [urlDirsSlug]
      rw [if_neg hpath]
    have hds2 : (urlDirsSlug url).2 =
        ((stripChar '/' (urlparseModel url).path).splitOn '/').getLastD [] := by
      simp only [urlDirsSlug]
      rw [if_neg hpath, if_pos hlast]
    have hpp : pathParts ((stripChar '/' (urlparseModel url).path).splitOn '/').dropLast =
        ((stripChar '/' (urlparseModel url).path).splitOn '/').dropLast := by
      rw [pathParts, List.filter_eq_self]
      intro d hd
      have hdp : d ∈ (stripChar '/' (urlparseModel url).path).splitOn '/' :=
        (List.dropLast_sublist _).mem hd
      have := hseg d hdp
      simp [this.1, this.2]
    have hp : get_page_path url status =
        ((stripChar '/' (urlparseModel url).path).splitOn '/').dropLast ++
          [pageFileName status
            (((stripChar '/' (urlparseModel url).path).splitOn '/').getLastD [])] := by
      unfold get_page_path
      rw [hds1, hds2, hpp]
    rw [hp, pageKeyOfFile_concat]
    have hkey : url_to_path_key url = stripChar '/' (urlparseModel url).path := by
      simp only [url_to_path_key]
      rw [if_neg hpath]
    rw [hkey]
    have hpartsdec : ((stripChar '/' (urlparseModel url).path).splitOn '/').dropLast ++
        [((stripChar '/' (urlparseModel url).path).splitOn '/').getLastD []] =
        (stripChar '/' (urlparseModel url).path).splitOn '/' := by
      rw [List.getLastD_eq_getLast?, List.getLast?_eq_getLast _ hpne]
      simp only [Option.getD_some]
      exact List.dropLast_append_getLast hpne
    have hinter : List.intercalate ('/' :: [])
        ((stripChar '/' (urlparseModel url).path).splitOn '/') =
        stripChar '/' (urlparseModel url).path :=
      List.intercalate_splitOn (stripChar '/' (urlparseModel url).path) '/'
    by_cases hdirs : ((stripChar '/' (urlparseModel url).path).splitOn '/').dropLast = []
    · rw [if_neg (by rw [hdirs]; simp)]
      have hone : [((stripChar '/' (urlparseModel url).path).splitOn '/').getLastD []] =
          (stripChar '/' (urlparseModel url).path).splitOn '/' := by
        have h0 := hpartsdec
        rw [hdirs] at h0
        simpa using h0
      conv_rhs => rw [← hinter, ← hone]
      simp [List.intercalate]
    · rw [if_pos (by simpa using hdirs)]
      conv_rhs => rw [← hinter, ← hpartsdec]
      rw [intercalate_append_singleton hdirs]

/-- A two-page site whose sitemap reaches both pages with 200s. -/
def siteTwoPages : Site where
  pages :=
    [("https://x.com/a".data, ⟨200, [], "A".data⟩),
     ("https://x.com/b".data, ⟨200, [], "B".data⟩)]
  links := fun _ _ => []
  isExternalCanonical := fun _ => false
  siteUrl := "https://x.com".data

/-- C2 counterexample: with budget 1 against a two-page origin, the
first run stores page `a` only; the second run, seeded with the
existing key `a` and the same budget, fetches and stores the NEW page
`b` (the budget is `maxPages + priorCount`, fresh for each run), so
the on-disk page count grows from 1 to 2. -/
theorem c2_counterexample :
    (crawl siteTwoPages ["https://x.com/a".data, "https://x.com/b".data] [] 1 5 3).2 = true ∧
    ((crawl siteTwoPages ["https://x.com/a".data, "https://x.com/b".data] [] 1 5 3).1.saved.map
      Prod.fst) = [("a".data)] ∧
    (crawl siteTwoPages ["https://x.com/a".data, "https://x.com/b".data]
      ["a".data] 1 5 3).2 = true ∧
    ((crawl siteTwoPages ["https://x.com/a".data, "https://x.com/b".data]
      ["a".data] 1 5 3).1.saved.map Prod.fst) = [("b".data)] ∧
    (["a".data] ++ (crawl siteTwoPages ["https://x.com/a".data, "https://x.com/b".data]
      ["a".data] 1 5 3).1.saved.map Prod.fst).dedup.length = 2 := by decide

/-- C2 amended: a crawl never fetches a path-key present in the
existing-key set it was seeded with (so a second run re-downloads
nothing already on disk), and every stored page file decodes back to
exactly its URL path-key, so `load_existing_pages` reproduces the
set of saved keys; the on-disk count may still grow because the
budget is per-run. -/
theorem c2_resume (site : Site) (sitemapUrls existingKeys : List Str)
    (maxPages innerFuel outerFuel : Nat) :
    (∀ u ∈ (crawl site sitemapUrls existingKeys maxPages innerFuel outerFuel).1.fetched,
      url_to_path_key u ∉ existingKeys) ∧
    (∀ url status, (∀ d ∈ (stripChar '/' (urlparseModel url).path).splitOn '/',
        d ≠ [] ∧ d ≠ ('.' :: [])) →
      pageKeyOfFile (get_page_path url status) = some (url_to_path_key url)) :=
  ⟨fun u hu => (crawl_inv site sitemapUrls existingKeys maxPages innerFuel
      outerFuel).hfetched u hu,
   fun url status h => pageKey_roundtrip url status h⟩

/-- C2 amended, witnessed: the second run of the two-page scenario
fetches only the fresh key `b`, and the stored file of a two-segment
URL decodes back to its path-key. -/
theorem c2_resume_witness :
    url_to_path_key ("https://x.com/b".data) ∉ (["a".data] : List Str) ∧
    pageKeyOfFile (get_page_path ("https://x.com/blog/post-1".data) 200) =
      some (url_to_path_key ("https://x.com/blog/post-1".data)) :=
  ⟨(c2_resume siteTwoPages ["https://x.com/a".data, "https://x.com/b".data]
      ["a".data] 1 5 3).1 ("https://x.com/b".data) (by decide),
   (c2_resume siteTwoPages [] [] 0 0 0).2 ("https://x.com/blog/post-1".data) 200
    (by decide)⟩

/-
C8. Frontier-loop termination.
-/

/-- The path-keys of all redirect targets the site can ever produce:
every key enqueued by `download_batch` lies in this finite list. -/
def LKeys (site : Site) : List Str :=
  site.pages.map (fun p => url_to_path_key p.2.redirectUrl)

/-- The redirect-round measure: how many potential redirect-target
keys are still unvisited. -/
def muR (site : Site) (st : CrawlSt) : Nat :=
  ((LKeys site).filter (fun k => decide (k ∉ st.visited))).length

theorem filter_length_mono {l : List Str} {p q : Str → Bool}
    (h : ∀ x ∈ l, q x = true → p x = true) :
    (l.filter q).length ≤ (l.filter p).length := by
  induction l with
  | nil => simp
  | cons a t ih =>
    have ht : ∀ x ∈ t, q x = true → p x = true :=
      fun x hx => h x (List.mem_cons_of_mem a hx)
    have hh := ih ht
    by_cases hq : q a = true
    · rw [List.filter_cons_of_pos hq, List.filter_cons_of_pos (h a (List.mem_cons_self a t) hq)]
      simpa using hh
    · rw [List.filter_cons_of_neg (by simpa using hq)]
      by_cases hp : p a = true
      · rw [List.filter_cons_of_pos hp]
        exact le_trans hh (by simp)
      · rw [List.filter_cons_of_neg (by simpa using hp)]
        exact hh

theorem filter_length_strict {l : List Str} {p q : Str → Bool}
    (h : ∀ x ∈ l, q x = true → p x = true) {x0 : Str} (hx0 : x0 ∈ l)
    (hp : p x0 = true) (hq : q x0 = false) :
    (l.filter q).length < (l.filter p).length := by
  induction l with
  | nil => exact absurd hx0 (List.not_mem_nil x0)
  | cons a t ih =>
    have ht : ∀ x ∈ t, q x = true → p x = true :=
      fun x hx => h x (List.mem_cons_of_mem a hx)
    rcases List.mem_cons.mp hx0 with he | hm
    · subst he
      rw [List.filter_cons_of_neg (by simp [hq]), List.filter_cons_of_pos hp]
      simp only [List.length_cons]
      exact Nat.lt_succ_of_le (filter_length_mono ht)
    · by_cases hqa : q a = true
      · rw [List.filter_cons_of_pos hqa,
          List.filter_cons_of_pos (h a (List.mem_cons_self a t) hqa)]
        simpa using ih ht hm
      · rw [List.filter_cons_of_neg (by simpa using hqa)]
        by_cases hpa : p a = true
        · rw [List.filter_cons_of_pos hpa]
          exact lt_of_lt_of_le (ih ht hm) (by simp)
        · rw [List.filter_cons_of_neg (by simpa using hpa)]
          exact ih ht hm

theorem LKeys_eq (site : Site) :
    LKeys site = site.pages.map (fun p => url_to_path_key p.2.redirectUrl) :=
  rfl

theorem mem_LKeys_of_redirect (site : Site) {t : Str}
    (h : ∃ p ∈ site.pages, t = p.2.redirectUrl) :
    url_to_path_key t ∈ LKeys site := by
  obtain ⟨p, hp, he⟩ := h
  rw [LKeys_eq]
  refine List.mem_map.mpr ⟨p, hp, ?_⟩
  rw [he]

/-- Ingredients of the redirect-round measure decrease, read off one
batch. -/
theorem download_batch_measure (site : Site) (st : CrawlSt) (urls : List Str) :
    (∃ ext, (download_batch site st urls).st.visited = st.visited ++ ext) ∧
    ((download_batch site st urls).targets ≠ [] →
      muR site (download_batch site st urls).st < muR site st) := by
  obtain ⟨tnew, h1, h2, h3, h4, h5, h6, h7, h8, h9, h10, h11, h12⟩ :=
    foldStep_spec site urls ⟨st, [], []⟩
  have htar : (download_batch site st urls).targets = tnew := h1
  have hvis : (download_batch site st urls).st.visited =
      st.visited ++ tnew.map url_to_path_key := h2
  refine ⟨⟨tnew.map url_to_path_key, hvis⟩, ?_⟩
  intro hne
  rw [htar] at hne
  cases htn : tnew with
  | nil => exact absurd htn hne
  | cons t0 r =>
    have ht0 : t0 ∈ tnew := by rw [htn]; exact List.mem_cons_self t0 r
    have hk0mem : url_to_path_key t0 ∈ LKeys site :=
      mem_LKeys_of_redirect site (h6 t0 ht0)
    have hk0old : url_to_path_key t0 ∉ st.visited :=
      h4 _ (List.mem_map_of_mem url_to_path_key ht0)
    have hk0new : url_to_path_key t0 ∈ (download_batch site st urls).st.visited := by
      rw [hvis]
      exact List.mem_append_right _ (List.mem_map_of_mem url_to_path_key ht0)
    refine filter_length_strict ?_ hk0mem ?_ ?_
    · intro x _ hx
      rw [decide_eq_true_eq] at hx ⊢
      intro hcon
      exact hx (by rw [hvis]; exact List.mem_append_left _ hcon)
    · rw [decide_eq_true_eq]
      exact hk0old
    · rw [decide_eq_false_iff_not]
      intro hcon
      exact hcon hk0new

theorem redirectLoop_nil (site : Site) (fuel : Nat) (st : CrawlSt)
    (bodies : List (Str × Str)) :
    (redirectLoop site fuel st [] bodies).2.2 = true := by
  cases fuel <;> simp [redirectLoop]

theorem redirectLoop_done (site : Site) :
    ∀ (fuel : Nat) (st : CrawlSt) (targets : List Str) (bodies : List (Str × Str)),
    muR site st + 2 ≤ fuel →
    (redirectLoop site fuel st targets bodies).2.2 = true := by
  intro fuel
  induction fuel with
  | zero =>
    intro st targets bodies hf
    omega
  | succ f ih =>
    intro st targets bodies hf
    simp only [redirectLoop]
    by_cases ht : targets.isEmpty
    · rw [if_pos ht]
    · rw [if_neg ht]
      obtain ⟨⟨ext, hvis⟩, hmu⟩ := download_batch_measure site st targets
      by_cases hT : (download_batch site st targets).targets = []
      · rw [hT]
        exact redirectLoop_nil site f _ _
      · have hlt := hmu hT
        exact ih _ _ _ (by omega)

theorem redirectLoop_visited (site : Site) :
    ∀ (fuel : Nat) (st : CrawlSt) (targets : List Str) (bodies : List (Str × Str)),
    ∃ ext, (redirectLoop site fuel st targets bodies).1.visited = st.visited ++ ext := by
  intro fuel
  induction fuel with
  | zero =>
    intro st targets bodies
    exact ⟨[], by simp [redirectLoop]⟩
  | succ f ih =>
    intro st targets bodies
    simp only [redirectLoop]
    by_cases ht : targets.isEmpty
    · rw [if_pos ht]
      exact ⟨[], by simp⟩
    · rw [if_neg ht]
      obtain ⟨⟨ext1, hvis⟩, _⟩ := download_batch_measure site st targets
      obtain ⟨ext2, hvis2⟩ := ih (download_batch site st targets).st
        (download_batch site st targets).targets
        (bodies ++ (download_batch site st targets).downloaded.map (fun d => (d.1, d.2.2)))
      exact ⟨ext1 ++ ext2, by rw [hvis2, hvis, List.append_assoc]⟩

theorem frontierLoop_done (site : Site) (maxTotal innerFuel : Nat)
    (hinner : (LKeys site).length + 2 ≤ innerFuel) :
    ∀ (fuel : Nat) (st : CrawlSt) (bodies : List (Str × Str)),
    maxTotal - st.visited.length < fuel →
    (frontierLoop site maxTotal innerFuel fuel st bodies).2 = true := by
  intro fuel
  induction fuel with
  | zero =>
    intro st bodies hf
    omega
  | succ f ih =>
    intro st bodies hf
    simp only [frontierLoop]
    set C := collectNewUrls site st.visited bodies with hC
    set NU := (if C.2.length > maxTotal - st.visited.length
      then C.2.take (maxTotal - st.visited.length) else C.2) with hNU
    by_cases hpr : maxTotal - st.visited.length = 0
    · rw [if_pos hpr]
    · rw [if_neg hpr]
      by_cases hempty : NU.isEmpty
      · rw [if_pos hempty]
      · rw [if_neg hempty]
        set A := download_batch site { st with visited := C.1 } NU with hA
        set R := redirectLoop site innerFuel A.st A.targets
          (A.downloaded.map (fun d => (d.1, d.2.2))) with hR
        have hmu : muR site A.st ≤ (LKeys site).length := by
          exact List.length_filter_le _ _
        have hok : R.2.2 = true := by
          rw [hR]
          exact redirectLoop_done site innerFuel _ _ _ (by omega)
        rw [if_pos hok]
        have hc2ne : C.2 ≠ [] := by
          intro hcon
          rw [hNU, hcon] at hempty
          simp at hempty
        have hc1len : C.1.length = st.visited.length + C.2.length := by
          obtain ⟨hc1, _, _⟩ := collectNewUrls_spec site bodies st.visited
          rw [hC, hc1, List.length_append, List.length_map]
        have hAvis : ∃ ext, A.st.visited = C.1 ++ ext := by
          rw [hA]
          exact (download_batch_measure site _ _).1
        have hRvis : ∃ ext, R.1.visited = A.st.visited ++ ext := by
          rw [hR]
          exact redirectLoop_visited site innerFuel _ _ _
        have hlen : R.1.visited.length ≥ st.visited.length + 1 := by
          obtain ⟨e1, he1⟩ := hAvis
          obtain ⟨e2, he2⟩ := hRvis
          rw [he2, he1, List.length_append, List.length_append, hc1len]
          have : C.2.length ≥ 1 := by
            cases hc : C.2 with
            | nil => exact absurd hc hc2ne
            | cons a t => simp
          omega
        exact ih R.1 R.2.1 (by omega)

/-- C8: for every finite oracle and every budget the crawl terminates:
with enough fuel for the redirect sub-loops (the number of possible
redirect-target keys plus two) and for the frontier loop (the total
budget plus one), every loop runs to completion — the visited set
grows monotonically by at least one key per frontier iteration and by
at least one redirect-target key per non-trivial redirect round, and
both quantities are bounded. -/
theorem c8_termination (site : Site) (sitemapUrls existingKeys : List Str)
    (maxPages innerFuel outerFuel : Nat)
    (hinner : (LKeys site).length + 2 ≤ innerFuel)
    (houter : maxPages + existingKeys.length < outerFuel) :
    (crawl site sitemapUrls existingKeys maxPages innerFuel outerFuel).2 = true := by
  simp only [crawl]
  set sel := selectSeeds (maxPages + existingKeys.length) existingKeys sitemapUrls with hsel
  by_cases hempty : sel.2.isEmpty
  · rw [if_pos hempty]
    exact frontierLoop_done site _ innerFuel hinner outerFuel _ [] (by omega)
  · rw [if_neg hempty]
    set A := download_batch site ⟨sel.1, [], [], 0, Stats.empty⟩ sel.2 with hA
    set R := redirectLoop site innerFuel A.st A.targets
      (A.downloaded.map (fun d => (d.1, d.2.2))) with hR
    have hok : R.2.2 = true := by
      rw [hR]
      refine redirectLoop_done site innerFuel _ _ _ ?_
      have : muR site A.st ≤ (LKeys site).length := List.length_filter_le _ _
      omega
    have hfr : (frontierLoop site (maxPages + existingKeys.length) innerFuel outerFuel
        R.1 R.2.1).2 = true :=
      frontierLoop_done site _ innerFuel hinner outerFuel _ _ (by omega)
    simp only [hok, hfr, Bool.and_self]

/-- C8 witnessed on the redirect-pair site with explicitly sufficient
fuel. -/
theorem c8_termination_witness :
    (crawl siteRedirectPair ["https://x.com/a".data] [] 1
      ((LKeys siteRedirectPair).length + 2) 2).2 = true :=
  c8_termination siteRedirectPair ["https://x.com/a".data] [] 1
    ((LKeys siteRedirectPair).length + 2) 2 (by decide) (by decide)

/-
C10. Link-extraction normalization.
-/

/-- The path-plus-params string `urlunparse` assembles first. -/
def p0Of (u : PUrl) : Str :=
  if u.params ≠ [] then u.path ++ ';' :: u.params else u.path

/-- The path part placed after the netloc by `urlunparse`: a slash is
prepended when the path does not already start with one. -/
def pRelOf (u : PUrl) : Str :=
  if p0Of u ≠ [] ∧ (p0Of u).head? ≠ some '/' then '/' :: p0Of u else p0Of u

/-- A concrete stand-in for urljoin-then-urlparse used to witness the
normalization theorem on an executable input. -/
def resolveDemo : Str → PUrl :=
  fun _ => ⟨"http".data, "x.com".data, "/a/".data, [], [], []⟩

/-- A concrete stand-in for urljoin-then-urlparse on the href
`//[:a]/p`: the bracketed netloc has hostname `:a`. -/
def resolveCorner : Str → PUrl :=
  fun _ => ⟨"http".data, '[' :: ':' :: 'a' :: ']' :: [], '/' :: 'p' :: [], [], [], []⟩

theorem takeWhile_app_all {p : Char → Bool} {a : Str} (b : Str)
    (h : ∀ x ∈ a, p x = true) :
    (a ++ b).takeWhile p = a ++ b.takeWhile p := by
  induction a with
  | nil => rfl
  | cons x t ih =>
    have hx : p x = true := h x (List.mem_cons_self x t)
    rw [List.cons_append, List.takeWhile_cons, hx, if_pos rfl, List.cons_append,
      ih (fun y hy => h y (List.mem_cons_of_mem x hy))]

theorem dropWhile_app_all {p : Char → Bool} {a : Str} (b : Str)
    (h : ∀ x ∈ a, p x = true) :
    (a ++ b).dropWhile p = b.dropWhile p := by
  induction a with
  | nil => rfl
  | cons x t ih =>
    have hx : p x = true := h x (List.mem_cons_self x t)
    rw [List.cons_append, List.dropWhile_cons, hx, if_pos rfl]
    exact ih (fun y hy => h y (List.mem_cons_of_mem x hy))

theorem head_dropWhile_false {p : Char → Bool} :
    ∀ (l : Str) {a : Char}, (l.dropWhile p).head? = some a → p a = false := by
  intro l
  induction l with
  | nil => intro a h; simp [List.dropWhile] at h
  | cons x t ih =>
    intro a h
    by_cases hx : p x = true
    · rw [List.dropWhile_cons, hx, if_pos rfl] at h
      exact ih h
    · simp only [Bool.not_eq_true] at hx
      rw [List.dropWhile_cons, hx] at h
      simp only [Bool.false_eq_true, if_false, List.head?_cons, Option.some.injEq] at h
      rw [← h]
      exact hx

theorem mem_of_mem_rstripChar {c x : Char} {s : Str} (h : x ∈ rstripChar c s) :
    x ∈ s := by
  rw [rstripChar, List.mem_reverse] at h
  exact List.mem_reverse.mp ((List.dropWhile_sublist _).mem h)

theorem rstripChar_getLast {c : Char} {s : Str} :
    (rstripChar c s).getLast? ≠ some c := by
  intro h
  rw [rstripChar, List.getLast?_reverse] at h
  have := head_dropWhile_false s.reverse h
  simp at this

theorem rstripChar_front (c : Char) (s : Str) : rstripChar c s <+: s := by
  have hsuf : (s.reverse.dropWhile (fun a => a = c)) <:+ s.reverse :=
    List.dropWhile_suffix _
  obtain ⟨t, ht⟩ := hsuf
  refine ⟨t.reverse, ?_⟩
  rw [rstripChar, ← List.reverse_append, ht, List.reverse_reverse]

theorem rstripChar_eq_self {c : Char} {s : Str} (h : s.getLast? ≠ some c) :
    rstripChar c s = s := by
  rcases hs : s.reverse with _ | ⟨a, t⟩
  · have hnil : s = [] := by
      rw [← s.reverse_reverse, hs]
      rfl
    rw [hnil]
    rfl
  · have ha : ¬(a = c) := by
      intro he
      apply h
      rw [← List.head?_reverse, hs, he]
      rfl
    rw [rstripChar, hs, List.dropWhile_cons]
    simp only [decide_eq_false ha, Bool.false_eq_true, if_false]
    rw [← hs, List.reverse_reverse]

theorem dropWhile_app_ne {p : Char → Bool} :
    ∀ {u : Str}, u.dropWhile p ≠ [] → ∀ (v : Str),
      (u ++ v).dropWhile p = u.dropWhile p ++ v := by
  intro u
  induction u with
  | nil => intro h _; exact absurd rfl h
  | cons x t ih =>
    intro h v
    by_cases hx : p x = true
    · rw [List.cons_append, List.dropWhile_cons, hx, if_pos rfl,
        List.dropWhile_cons, hx, if_pos rfl]
      apply ih
      intro ht
      apply h
      rw [List.dropWhile_cons, hx, if_pos rfl, ht]
    · simp only [Bool.not_eq_true] at hx
      simp only [List.cons_append, List.dropWhile_cons, hx, Bool.false_eq_true,
        if_false]

theorem rstripChar_cons_nil {c : Char} {s : Str} (h : rstripChar c s = [])
    (a : Char) :
    rstripChar c (a :: s) = if a = c then [] else a :: [] := by
  have hall : ∀ x ∈ s.reverse, (fun y => decide (y = c)) x = true := by
    rw [← List.dropWhile_eq_nil_iff]
    have hrev := congrArg List.reverse h
    rw [rstripChar, List.reverse_reverse] at hrev
    exact hrev
  rw [rstripChar, List.reverse_cons, dropWhile_app_all _ hall]
  by_cases hac : a = c
  · simp [List.dropWhile_cons, hac]
  · simp [List.dropWhile_cons, hac]

theorem rstripChar_cons_pos {c : Char} {s : Str} (h : rstripChar c s ≠ [])
    (a : Char) :
    rstripChar c (a :: s) = a :: rstripChar c s := by
  have hne : s.reverse.dropWhile (fun y => decide (y = c)) ≠ [] := by
    intro he
    apply h
    rw [rstripChar, he]
    rfl
  rw [rstripChar, List.reverse_cons, dropWhile_app_ne hne (a :: []),
    List.reverse_append]
  rfl

theorem rstripChar_append_left {c : Char} (a : Str) {b : Str}
    (h : rstripChar c b = []) :
    rstripChar c (a ++ b) = rstripChar c a := by
  induction a with
  | nil => rw [List.nil_append, h]; rfl
  | cons x t ih =>
    rw [List.cons_append]
    by_cases hh : rstripChar c (t ++ b) = []
    · rw [rstripChar_cons_nil hh, rstripChar_cons_nil (by rw [← ih]; exact hh)]
    · rw [rstripChar_cons_pos hh, rstripChar_cons_pos (by rw [← ih]; exact hh), ih]

theorem rstripChar_append_right {c : Char} (a : Str) {b : Str}
    (h : rstripChar c b ≠ []) :
    rstripChar c (a ++ b) = a ++ rstripChar c b := by
  induction a with
  | nil => rfl
  | cons x t ih =>
    have hne : rstripChar c (t ++ b) ≠ [] := by
      rw [ih]
      intro he
      exact h (List.append_eq_nil.mp he).2
    rw [List.cons_append, rstripChar_cons_pos hne, ih, List.cons_append]

theorem isPrefixOf_iff {a b : Str} : a.isPrefixOf b = true ↔ a <+: b := by
  induction a generalizing b with
  | nil => simp [List.isPrefixOf]
  | cons x t ih =>
    cases b with
    | nil => simp [List.isPrefixOf]
    | cons y s =>
      simp only [List.isPrefixOf, Bool.and_eq_true, beq_iff_eq, ih,
        List.cons_prefix_cons]

theorem splitScheme_concat {scheme : Str} (rest : Str) (h1 : scheme ≠ [])
    (h2 : scheme.all schemeChars = true) (h3 : toLowerStr scheme = scheme)
    (h4 : ':' ∉ scheme) :
    splitScheme (scheme ++ ':' :: rest) = (scheme, rest) := by
  rw [splitScheme, splitFirst_first_hit h4]
  show (if scheme ≠ [] ∧ scheme.all schemeChars then (toLowerStr scheme, rest)
    else ([], scheme ++ ':' :: rest)) = (scheme, rest)
  rw [if_pos ⟨h1, h2⟩, h3]

theorem splitNetloc_found {netloc : Str} (tail : Str)
    (h5 : '/' ∉ netloc) (h6 : '?' ∉ netloc) (h7 : '#' ∉ netloc)
    (h8 : tail = [] ∨ tail.head? = some '/') :
    splitNetloc ('/' :: '/' :: (netloc ++ tail)) = (netloc, tail) := by
  have hall : ∀ x ∈ netloc,
      (fun c => decide ¬(c = '/' ∨ c = '?' ∨ c = '#')) x = true := by
    intro x hx
    simp only [decide_eq_true_eq]
    rintro (rfl | rfl | rfl)
    · exact h5 hx
    · exact h6 hx
    · exact h7 hx
  have htail : tail.takeWhile (fun c => decide ¬(c = '/' ∨ c = '?' ∨ c = '#')) = [] ∧
      tail.dropWhile (fun c => decide ¬(c = '/' ∨ c = '?' ∨ c = '#')) = tail := by
    rcases h8 with h | h
    · rw [h]
      exact ⟨rfl, rfl⟩
    · cases tail with
      | nil => exact ⟨rfl, rfl⟩
      | cons b t =>
        simp only [List.head?_cons, Option.some.injEq] at h
        subst h
        constructor
        · rw [List.takeWhile_cons]
          simp
        · rw [List.dropWhile_cons]
          simp
  rw [splitNetloc, if_pos (by simp [List.isPrefixOf])]
  show (((netloc ++ tail).takeWhile _), ((netloc ++ tail).dropWhile _)) = (netloc, tail)
  rw [takeWhile_app_all tail hall, dropWhile_app_all tail hall, htail.1, htail.2,
    List.append_nil]

theorem splitNetloc_absent {rest : Str}
    (h : ¬ (('/' :: '/' :: []).isPrefixOf rest = true)) :
    splitNetloc rest = ([], rest) := by
  rw [splitNetloc, if_neg h]

theorem urlsplitModel_scheme (url : Str) :
    (urlsplitModel url).scheme = (splitScheme url).1 := by
  rcases hss : splitScheme url with ⟨s, r1⟩
  rcases hsn : splitNetloc r1 with ⟨n, r2⟩
  rcases hf : splitFirst '#' r2 with _ | ⟨a, b⟩
  · rcases hq : splitFirst '?' r2 with _ | ⟨p, q⟩ <;>
      simp [urlsplitModel, hss, hsn, hf, hq]
  · rcases hq : splitFirst '?' a with _ | ⟨p, q⟩ <;>
      simp [urlsplitModel, hss, hsn, hf, hq]

theorem urlsplitModel_netloc (url : Str) :
    (urlsplitModel url).netloc = (splitNetloc (splitScheme url).2).1 := by
  rcases hss : splitScheme url with ⟨s, r1⟩
  rcases hsn : splitNetloc r1 with ⟨n, r2⟩
  rcases hf : splitFirst '#' r2 with _ | ⟨a, b⟩
  · rcases hq : splitFirst '?' r2 with _ | ⟨p, q⟩ <;>
      simp [urlsplitModel, hss, hsn, hf, hq]
  · rcases hq : splitFirst '?' a with _ | ⟨p, q⟩ <;>
      simp [urlsplitModel, hss, hsn, hf, hq]

theorem urlsplit_recover {scheme netloc : Str} (tail : Str) (h1 : scheme ≠ [])
    (h2 : scheme.all schemeChars = true) (h3 : toLowerStr scheme = scheme)
    (h4 : ':' ∉ scheme)
    (h5 : '/' ∉ netloc) (h6 : '?' ∉ netloc) (h7 : '#' ∉ netloc)
    (h8 : tail = [] ∨ tail.head? = some '/') :
    (urlsplitModel (scheme ++ ':' :: '/' :: '/' :: (netloc ++ tail))).scheme = scheme ∧
    (urlsplitModel (scheme ++ ':' :: '/' :: '/' :: (netloc ++ tail))).netloc = netloc := by
  have hss := splitScheme_concat ('/' :: '/' :: (netloc ++ tail)) h1 h2 h3 h4
  have hsn := splitNetloc_found tail h5 h6 h7 h8
  constructor
  · rw [urlsplitModel_scheme, hss]
  · rw [urlsplitModel_netloc, hss]
    dsimp only
    rw [hsn]

theorem urlsplit_recover_nonet {scheme : Str} (rest : Str) (h1 : scheme ≠ [])
    (h2 : scheme.all schemeChars = true) (h3 : toLowerStr scheme = scheme)
    (h4 : ':' ∉ scheme)
    (h5 : ¬ (('/' :: '/' :: []).isPrefixOf rest = true)) :
    (urlsplitModel (scheme ++ ':' :: rest)).scheme = scheme ∧
    (urlsplitModel (scheme ++ ':' :: rest)).netloc = [] := by
  have hss := splitScheme_concat rest h1 h2 h3 h4
  have hsn := splitNetloc_absent h5
  constructor
  · rw [urlsplitModel_scheme, hss]
  · rw [urlsplitModel_netloc, hss]
    dsimp only
    rw [hsn]

theorem p0Of_mem {u : PUrl} {x : Char} (h : x ∈ p0Of u) :
    x ∈ u.path ∨ x = ';' ∨ x ∈ u.params := by
  simp only [p0Of] at h
  split_ifs at h with hp
  · rcases List.mem_append.mp h with h | h
    · exact Or.inl h
    · rcases List.mem_cons.mp h with h | h
      · exact Or.inr (Or.inl h)
      · exact Or.inr (Or.inr h)
  · exact Or.inl h

theorem pRelOf_mem {u : PUrl} {x : Char} (h : x ∈ pRelOf u) :
    x = '/' ∨ x ∈ u.path ∨ x = ';' ∨ x ∈ u.params := by
  simp only [pRelOf] at h
  split_ifs at h with hp
  · rcases List.mem_cons.mp h with h | h
    · exact Or.inl h
    · exact Or.inr (p0Of_mem h)
  · exact Or.inr (p0Of_mem h)

theorem pRelOf_head (u : PUrl) : pRelOf u = [] ∨ (pRelOf u).head? = some '/' := by
  simp only [pRelOf]
  split_ifs with h
  · exact Or.inr rfl
  · by_cases hp : p0Of u = []
    · exact Or.inl hp
    · rcases not_and_or.mp h with h | h
      · exact absurd hp (by simpa using h)
      · exact Or.inr (not_not.mp h)

/-- The `geturl` of a parse result with query and fragment blanked, in
closed form. -/
theorem geturl_noqf (u : PUrl) (hsch : u.scheme ≠ []) :
    geturlModel { u with fragment := [], query := [] } =
      (if u.netloc ≠ [] ∨ ('/' :: '/' :: []).isPrefixOf (p0Of u) = true then
        u.scheme ++ ':' :: '/' :: '/' :: (u.netloc ++ pRelOf u)
      else u.scheme ++ ':' :: p0Of u) := by
  simp only [geturlModel, p0Of, pRelOf, ne_eq, eq_self_iff_true, not_true, if_false]
  rw [if_pos hsch]
  split_ifs <;> rfl

/-- Everything `extract_internal_links` emits for one kept href: the
normalized URL has no fragment or query delimiter, does not end in a
slash, and parses back to the same scheme and netloc. -/
theorem normalized_spec (u : PUrl) (hwf : ParsedWF u)
    (hs : u.scheme = "http".data ∨ u.scheme = "https".data) :
    '#' ∉ rstripChar '/' (geturlModel { u with fragment := [], query := [] }) ∧
    '?' ∉ rstripChar '/' (geturlModel { u with fragment := [], query := [] }) ∧
    (urlsplitModel (rstripChar '/'
      (geturlModel { u with fragment := [], query := [] }))).scheme = u.scheme ∧
    (urlsplitModel (rstripChar '/'
      (geturlModel { u with fragment := [], query := [] }))).netloc = u.netloc := by
  have hsch : u.scheme ≠ [] := by rcases hs with h | h <;> rw [h] <;> decide
  have hchars : u.scheme.all schemeChars = true := by
    rcases hs with h | h <;> rw [h] <;> decide
  have hlower : toLowerStr u.scheme = u.scheme := by
    rcases hs with h | h <;> rw [h] <;> decide
  have hcolon : ':' ∉ u.scheme := by rcases hs with h | h <;> rw [h] <;> decide
  have hG := geturl_noqf u hsch
  have hmem : ∀ x, x ∈ rstripChar '/' (geturlModel { u with fragment := [], query := [] }) →
      x ∉ u.scheme → x ∉ u.netloc → x ∉ u.path → x ∉ u.params →
      x = ':' ∨ x = '/' ∨ x = ';' := by
    intro x hx h1 h2 h3 h4
    have hx2 := mem_of_mem_rstripChar hx
    rw [hG] at hx2
    split_ifs at hx2 with hc
    · rcases List.mem_append.mp hx2 with h | h
      · exact absurd h h1
      · rcases List.mem_cons.mp h with h | h
        · exact Or.inl h
        · rcases List.mem_cons.mp h with h | h
          · exact Or.inr (Or.inl h)
          · rcases List.mem_cons.mp h with h | h
            · exact Or.inr (Or.inl h)
            · rcases List.mem_append.mp h with h | h
              · exact absurd h h2
              · rcases pRelOf_mem h with h | h | h | h
                · exact Or.inr (Or.inl h)
                · exact absurd h h3
                · exact Or.inr (Or.inr h)
                · exact absurd h h4
    · rcases List.mem_append.mp hx2 with h | h
      · exact absurd h h1
      · rcases List.mem_cons.mp h with h | h
        · exact Or.inl h
        · rcases p0Of_mem h with h | h | h
          · exact absurd h h3
          · exact Or.inr (Or.inr h)
          · exact absurd h h4
  have hhash : '#' ∉ rstripChar '/' (geturlModel { u with fragment := [], query := [] }) := by
    intro hx
    have hns : ('#' : Char) ∉ u.scheme := by rcases hs with h | h <;> rw [h] <;> decide
    rcases hmem '#' hx hns hwf.netlocOK.2.2 hwf.pathOK.2 hwf.paramsOK.2.2 with h | h | h <;>
      exact absurd h (by decide)
  have hquest : '?' ∉ rstripChar '/' (geturlModel { u with fragment := [], query := [] }) := by
    intro hx
    have hns : ('?' : Char) ∉ u.scheme := by rcases hs with h | h <;> rw [h] <;> decide
    rcases hmem '?' hx hns hwf.netlocOK.2.1 hwf.pathOK.1 hwf.paramsOK.2.1 with h | h | h <;>
      exact absurd h (by decide)
  have hparse : (urlsplitModel (rstripChar '/'
      (geturlModel { u with fragment := [], query := [] }))).scheme = u.scheme ∧
      (urlsplitModel (rstripChar '/'
        (geturlModel { u with fragment := [], query := [] }))).netloc = u.netloc := by
    rw [hG]
    split_ifs with hc
    · by_cases hn : u.netloc = []
      · have hpre : ('/' :: '/' :: []).isPrefixOf (p0Of u) = true := by
          rcases hc with h | h
          · exact absurd hn h
          · exact h
        obtain ⟨r, hr⟩ : ∃ r, p0Of u = '/' :: '/' :: r := by
          obtain ⟨t, ht⟩ := isPrefixOf_iff.mp hpre
          exact ⟨t, ht.symm⟩
        have hpRel : pRelOf u = p0Of u := by
          simp only [pRelOf]
          rw [if_neg]
          intro hand
          apply hand.2
          rw [hr]
          rfl
        rw [hn, hpRel, hr, List.nil_append]
        rw [show u.scheme ++ ':' :: '/' :: '/' :: '/' :: '/' :: r =
          (u.scheme ++ ':' :: []) ++ '/' :: '/' :: '/' :: '/' :: r by simp]
        by_cases hr0 : rstripChar '/' r = []
        · have f1 : rstripChar '/' ('/' :: r) = [] := by
            rw [rstripChar_cons_nil hr0, if_pos rfl]
          have f2 : rstripChar '/' ('/' :: '/' :: r) = [] := by
            rw [rstripChar_cons_nil f1, if_pos rfl]
          have f3 : rstripChar '/' ('/' :: '/' :: '/' :: r) = [] := by
            rw [rstripChar_cons_nil f2, if_pos rfl]
          have f4 : rstripChar '/' ('/' :: '/' :: '/' :: '/' :: r) = [] := by
            rw [rstripChar_cons_nil f3, if_pos rfl]
          rw [rstripChar_append_left _ f4]
          have hB : rstripChar '/' (u.scheme ++ ':' :: []) = u.scheme ++ ':' :: [] := by
            apply rstripChar_eq_self
            rw [List.getLast?_append_of_ne_nil _ (by simp)]
            decide
          rw [hB]
          exact urlsplit_recover_nonet [] hsch hchars hlower hcolon (by decide)
        · have e1 : rstripChar '/' ('/' :: r) = '/' :: rstripChar '/' r :=
            rstripChar_cons_pos hr0 '/'
          have e2 : rstripChar '/' ('/' :: '/' :: r) = '/' :: '/' :: rstripChar '/' r := by
            rw [rstripChar_cons_pos (by rw [e1]; simp) '/', e1]
          have e3 : rstripChar '/' ('/' :: '/' :: '/' :: r) =
              '/' :: '/' :: '/' :: rstripChar '/' r := by
            rw [rstripChar_cons_pos (by rw [e2]; simp) '/', e2]
          have e4 : rstripChar '/' ('/' :: '/' :: '/' :: '/' :: r) =
              '/' :: '/' :: '/' :: '/' :: rstripChar '/' r := by
            rw [rstripChar_cons_pos (by rw [e3]; simp) '/', e3]
          rw [rstripChar_append_right _ (by rw [e4]; simp), e4]
          rw [show (u.scheme ++ ':' :: []) ++ '/' :: '/' :: '/' :: '/' :: rstripChar '/' r =
            u.scheme ++ ':' :: '/' :: '/' :: ([] ++ ('/' :: '/' :: rstripChar '/' r)) by simp]
          exact urlsplit_recover _ hsch hchars hlower hcolon (by decide) (by decide)
            (by decide) (Or.inr rfl)
      · have hp' := pRelOf_head u
        rw [show u.scheme ++ ':' :: '/' :: '/' :: (u.netloc ++ pRelOf u) =
          (u.scheme ++ ':' :: '/' :: '/' :: u.netloc) ++ pRelOf u by simp]
        have hAlast : (u.scheme ++ ':' :: '/' :: '/' :: u.netloc).getLast? ≠ some '/' := by
          rw [show u.scheme ++ ':' :: '/' :: '/' :: u.netloc =
            (u.scheme ++ ':' :: '/' :: '/' :: []) ++ u.netloc by simp,
            List.getLast?_append_of_ne_nil _ hn]
          intro he
          obtain ⟨hne2, hx⟩ := List.mem_getLast?_eq_getLast (Option.mem_def.mpr he)
          apply hwf.netlocOK.1
          rw [hx]
          exact List.getLast_mem hne2
        by_cases hpr : rstripChar '/' (pRelOf u) = []
        · rw [rstripChar_append_left _ hpr, rstripChar_eq_self hAlast]
          rw [show u.scheme ++ ':' :: '/' :: '/' :: u.netloc =
            u.scheme ++ ':' :: '/' :: '/' :: (u.netloc ++ []) by simp]
          exact urlsplit_recover [] hsch hchars hlower hcolon hwf.netlocOK.1
            hwf.netlocOK.2.1 hwf.netlocOK.2.2 (Or.inl rfl)
        · have hpne : pRelOf u ≠ [] := by
            intro h0
            apply hpr
            rw [h0]
            rfl
          have hhead : (pRelOf u).head? = some '/' := by
            rcases hp' with h | h
            · exact absurd h hpne
            · exact h
          obtain ⟨t0, ht0⟩ : ∃ t0, pRelOf u = '/' :: t0 := by
            cases hp2 : pRelOf u with
            | nil => exact absurd hp2 hpne
            | cons b t =>
              rw [hp2] at hhead
              simp only [List.head?_cons, Option.some.injEq] at hhead
              exact ⟨t, by rw [hhead]⟩
          have ht0r : rstripChar '/' t0 ≠ [] := by
            intro hh
            apply hpr
            rw [ht0, rstripChar_cons_nil hh, if_pos rfl]
          rw [ht0, rstripChar_append_right _
            (show rstripChar '/' ('/' :: t0) ≠ [] by rw [rstripChar_cons_pos ht0r]; simp),
            rstripChar_cons_pos ht0r]
          rw [show (u.scheme ++ ':' :: '/' :: '/' :: u.netloc) ++ '/' :: rstripChar '/' t0 =
            u.scheme ++ ':' :: '/' :: '/' :: (u.netloc ++ ('/' :: rstripChar '/' t0)) by simp]
          exact urlsplit_recover _ hsch hchars hlower hcolon hwf.netlocOK.1
            hwf.netlocOK.2.1 hwf.netlocOK.2.2 (Or.inr rfl)
    · have hn : u.netloc = [] := by
        by_contra hnn
        exact hc (Or.inl hnn)
      have hnp : ¬ (('/' :: '/' :: []).isPrefixOf (p0Of u) = true) := by
        intro hp
        exact hc (Or.inr hp)
      rw [hn]
      rw [show u.scheme ++ ':' :: p0Of u = (u.scheme ++ ':' :: []) ++ p0Of u by simp]
      by_cases hp0 : rstripChar '/' (p0Of u) = []
      · rw [rstripChar_append_left _ hp0]
        have hB : rstripChar '/' (u.scheme ++ ':' :: []) = u.scheme ++ ':' :: [] := by
          apply rstripChar_eq_self
          rw [List.getLast?_append_of_ne_nil _ (by simp)]
          decide
        rw [hB]
        exact urlsplit_recover_nonet [] hsch hchars hlower hcolon (by decide)
      · rw [rstripChar_append_right _ hp0]
        rw [show (u.scheme ++ ':' :: []) ++ rstripChar '/' (p0Of u) =
          u.scheme ++ ':' :: rstripChar '/' (p0Of u) by simp]
        refine urlsplit_recover_nonet _ hsch hchars hlower hcolon ?_
        intro hcon
        apply hnp
        rw [isPrefixOf_iff] at hcon ⊢
        exact hcon.trans (rstripChar_front '/' (p0Of u))
  exact ⟨hhash, hquest, hparse.1, hparse.2⟩

theorem extractOneLink_spec (resolve : Str → PUrl) (siteDomain href o : Str)
    (hwf : ParsedWF (resolve (pyStrip href)))
    (ho : extractOneLink resolve siteDomain href = some o) :
    o ≠ [] ∧ '#' ∉ o ∧ '?' ∉ o ∧ o.getLast? ≠ some '/' ∧
    ((urlsplitModel o).scheme = "http".data ∨ (urlsplitModel o).scheme = "https".data) ∧
    effectiveHost (urlsplitModel o) = siteDomain := by
  simp only [extractOneLink] at ho
  rw [show (if hostnameOf (resolve (pyStrip href)).netloc ≠ []
      then hostnameOf (resolve (pyStrip href)).netloc
      else (resolve (pyStrip href)).netloc) =
    effectiveHost (resolve (pyStrip href)) from rfl] at ho
  split_ifs at ho with h1 h2 h3 h4
  rw [Option.some.injEq] at ho
  subst ho
  have hs : (resolve (pyStrip href)).scheme = "http".data ∨
      (resolve (pyStrip href)).scheme = "https".data := h3
  obtain ⟨hh, hq, hps, hpn⟩ := normalized_spec (resolve (pyStrip href)) hwf hs
  refine ⟨h4, hh, hq, rstripChar_getLast, ?_, ?_⟩
  · rw [hps]
    exact hs
  · have h2' : effectiveHost (resolve (pyStrip href)) = siteDomain := not_ne_iff.mp h2
    simp only [effectiveHost]
    rw [hpn]
    exact h2'

theorem extract_mem (resolve : Str → PUrl) (siteUrl : Str) (hrefs : List Str) :
    ∀ o ∈ extract_internal_links resolve siteUrl hrefs,
      ∃ h ∈ hrefs,
        extractOneLink resolve (effectiveHost (urlparseModel siteUrl)) h = some o := by
  have key : ∀ (hs acc : List Str) (o : Str),
      o ∈ hs.foldl (fun acc h =>
        match extractOneLink resolve (effectiveHost (urlparseModel siteUrl)) h with
        | some link => if link ∈ acc then acc else acc ++ [link]
        | none => acc) acc →
      o ∈ acc ∨ ∃ h ∈ hs,
        extractOneLink resolve (effectiveHost (urlparseModel siteUrl)) h = some o := by
    intro hs
    induction hs with
    | nil => intro acc o ho; exact Or.inl ho
    | cons h t ih =>
      intro acc o ho
      rw [List.foldl_cons] at ho
      rcases ih _ o ho with hacc | ⟨h2, hh2, he2⟩
      · cases hE : extractOneLink resolve (effectiveHost (urlparseModel siteUrl)) h with
        | none =>
          simp only [hE] at hacc
          exact Or.inl hacc
        | some link =>
          simp only [hE] at hacc
          by_cases hmem : link ∈ acc
          · rw [if_pos hmem] at hacc
            exact Or.inl hacc
          · rw [if_neg hmem] at hacc
            rcases List.mem_append.mp hacc with hin | hin
            · exact Or.inl hin
            · refine Or.inr ⟨h, List.mem_cons_self h t, ?_⟩
              rw [hE, List.mem_singleton.mp hin]
      · exact Or.inr ⟨h2, List.mem_cons_of_mem h hh2, he2⟩
  intro o ho
  have hrw : extract_internal_links resolve siteUrl hrefs =
      hrefs.foldl (fun acc h =>
        match extractOneLink resolve (effectiveHost (urlparseModel siteUrl)) h with
        | some link => if link ∈ acc then acc else acc ++ [link]
        | none => acc) [] := rfl
  rw [hrw] at ho
  rcases key hrefs [] o ho with h | h
  · exact absurd h (List.not_mem_nil o)
  · exact h

/-- C10 counterexample to the plain-hostname reading: for the site URL
`http://:a` (empty hostname, netloc `:a`) an href resolving to the
bracketed netloc `[:a]` (hostname `:a`) passes the domain comparison,
because the code compares hostname-or-netloc on each side; the emitted
URL then has hostname `:a` while the site URL has an empty hostname. -/
theorem c10_counterexample :
    ∃ o ∈ extract_internal_links resolveCorner
        ('h' :: 't' :: 't' :: 'p' :: ':' :: '/' :: '/' :: ':' :: 'a' :: [])
        [('/' :: '/' :: '[' :: ':' :: 'a' :: ']' :: '/' :: 'p' :: [])],
      hostnameOf (urlsplitModel o).netloc ≠
        hostnameOf (urlparseModel
          ('h' :: 't' :: 't' :: 'p' :: ':' :: '/' :: '/' :: ':' :: 'a' :: [])).netloc := by
  decide

/-- C10: every URL produced by `extract_internal_links` is non-empty,
contains no fragment or query delimiter, does not end in a slash, and
parses back with scheme http or https and with the same effective host
(hostname, or netloc when the hostname is empty) as the site URL; the
hypothesis states the structural invariants every urlparse result
satisfies. -/
theorem c10_link_normalization (resolve : Str → PUrl) (siteUrl : Str)
    (hrefs : List Str) (hwf : ∀ h, ParsedWF (resolve h)) :
    ∀ o ∈ extract_internal_links resolve siteUrl hrefs,
      o ≠ [] ∧ '#' ∉ o ∧ '?' ∉ o ∧ o.getLast? ≠ some '/' ∧
      ((urlsplitModel o).scheme = "http".data ∨
        (urlsplitModel o).scheme = "https".data) ∧
      effectiveHost (urlsplitModel o) = effectiveHost (urlparseModel siteUrl) := by
  intro o ho
  obtain ⟨h, _, hE⟩ := extract_mem resolve siteUrl hrefs o ho
  exact extractOneLink_spec resolve _ h o (hwf (pyStrip h)) hE

/-- C10 witnessed at a concrete resolver, site URL and href list. -/
theorem c10_link_normalization_witness :
    (∀ h, ParsedWF (resolveDemo h)) ∧
    ∀ o ∈ extract_internal_links resolveDemo "http://x.com".data [" /a/ ".data],
      o ≠ [] ∧ '#' ∉ o ∧ '?' ∉ o ∧ o.getLast? ≠ some '/' ∧
      ((urlsplitModel o).scheme = "http".data ∨
        (urlsplitModel o).scheme = "https".data) ∧
      effectiveHost (urlsplitModel o) = effectiveHost (urlparseModel "http://x.com".data) :=
  ⟨fun x => by
      refine ⟨⟨?_, ?_, ?_⟩, ⟨?_, ?_⟩, ⟨?_, ?_, ?_⟩, ?_⟩ <;> simp only [resolveDemo] <;>
        decide,
    c10_link_normalization resolveDemo "http://x.com".data [" /a/ ".data]
      (fun x => by
        refine ⟨⟨?_, ?_, ?_⟩, ⟨?_, ?_⟩, ⟨?_, ?_, ?_⟩, ?_⟩ <;> simp only [resolveDemo] <;>
          decide)⟩

end SeoTools
